import Mathlib

/-!
# Bounded-concurrency fetch and reorder (fetch.go)

A shallow embedding of `fetch.go`.

* Go strings are Lean strings; the two separators the program splits on
  (`"="` and `" "`) are one byte long, so a separator is a single character.
* The file system and the network are outside the program: the reader takes
  the lines of the file, `http.Get` is a parameter (`Transport`), and what
  reading a response body gives is part of the response.
* A call of `FetchContentParallel` is a transition system.  Its state holds
  the place of the calling goroutine and of every worker goroutine in their
  code, the number of elements in the buffer of `semaphoreChan`, and the
  network calls made so far.  `resultsChan` is unbuffered, so a send on it is
  one step of the sender and the receiver together.  A schedule picks, step by
  step, which of the goroutines that can move does move; the properties are
  proved for every schedule.
* A run-time panic in any goroutine ends the program (`panicked`).
-/

namespace Fetch

/-! ## strings.Split for a one-character separator -/

/-- The Go library call `strings.Index(s, sep)` for a one-character `sep`:
the position of the first occurrence, `none` for Go's `-1`. -/
def stringsIndex (sep : Char) : List Char → Option Nat
  | [] => none
  | c :: cs => if c = sep then some 0 else (stringsIndex sep cs).map (· + 1)

/-- The loop of Go's `genSplit`: at most `n` cuts at the first occurrence of
the separator, the remainder is the last piece. -/
def genSplitLoop (sep : Char) : Nat → List Char → List (List Char)
  | 0, s => [s]
  | n + 1, s =>
    match stringsIndex sep s with
    | none => [s]
    | some m => s.take m :: genSplitLoop sep n (s.drop (m + 1))

/-- The Go library call `strings.Split(s, sep)` for a one-character `sep`:
`genSplit` with `n = strings.Count(s, sep) + 1` pieces. -/
def stringsSplit (s : String) (sep : Char) : List String :=
  (genSplitLoop sep (s.data.count sep) s.data).map String.mk

/-! ## Target construction (`readAsnInformation`, `PrepareURLs`) -/

/-- The Go struct `ASN`. -/
structure ASN where
  ASPrefixedNumber : String
  deriving DecidableEq, Repr

/-- The package variable `RequestURITemplate` at its initial value. -/
def RequestURITemplate : String :=
  "https://stat.ripe.net/data/announced-prefixes/data.json?resource="

/-- The scanning loop of `readAsnInformation` over the successive values of
`scanner.Text()`: each line is split on a space and `"AS"` is put in front of
field 0.  `none` stands for the run-time panic of an index out of range. -/
def readAsnInformation : List String → Option (List ASN)
  | [] => some []
  | line :: rest =>
    match (stringsSplit line ' ')[0]? with
    | none => none
    | some c =>
      match readAsnInformation rest with
      | none => none
      | some results => some ({ ASPrefixedNumber := "AS" ++ c } :: results)

/-- The Go function `PrepareURLs`: one target per identifier that is not the
empty string, in input order. -/
def PrepareURLs : List ASN → List String
  | [] => []
  | asnQuery :: queries =>
    if asnQuery.ASPrefixedNumber ≠ "" then
      (RequestURITemplate ++ asnQuery.ASPrefixedNumber) :: PrepareURLs queries
    else PrepareURLs queries

/-- The label a fetch worker takes from its target:
`strings.Split(url, "=")[1]`; `none` stands for the index-out-of-range
panic. -/
def extractLabel (url : String) : Option String :=
  (stringsSplit url '=')[1]?

/-! ## The fetch batch (`FetchContentParallel`) -/

/-- The Go interface value `Response.Body` when it is not nil: what
`ioutil.ReadAll` gives on it, the content or (`none`) a read error. -/
structure ReadCloser where
  content : Option String
  deriving DecidableEq, Repr

/-- The Go type `http.Response`, reduced to the fields the program can see;
`Body = none` is the nil interface of a zero-valued response. -/
structure Response where
  StatusCode : Nat
  Body : Option ReadCloser
  deriving DecidableEq, Repr

/-- The Go struct `result`. -/
structure result where
  query : String
  index : Nat
  res : Response
  err : Option String
  deriving DecidableEq, Repr

/-- The pair `(res *http.Response, err error)` that `http.Get` returns;
`none` is nil. -/
structure GetResult where
  res : Option Response
  err : Option String
  deriving DecidableEq, Repr

/-- The network, outside the program: what the call `http.Get(url)` made by
the worker of a position returns. -/
abbrev Transport := Nat → String → GetResult

/-- The comparison passed to `sort.Slice`. -/
def less (a b : result) : Prop := a.index < b.index

instance : DecidableRel less := fun a b => inferInstanceAs (Decidable (a.index < b.index))

/-- The call `sort.Slice(results, less)`.  The library sort is not stable, so
this insertion sort is the library's result exactly when no two elements
compare equal. -/
def sortSlice (results : List result) : List result :=
  results.insertionSort (fun a b => ¬ less b a)

/-- Where a worker goroutine stands in its body. -/
inductive PC
  | waiting                 -- at `semaphoreChan <- struct{}{}`
  | holding                 -- slot taken, before `http.Get(url)`
  | calling                 -- inside `http.Get(url)`: the network call is in flight
  | fetched (g : GetResult) -- `http.Get` returned, before the result is built
  | posting (r : result)    -- at `resultsChan <- r`
  | releasing               -- at `<-semaphoreChan`
  | done
  deriving DecidableEq, Repr

/-- One goroutine started by `go func(i, url)`; its `i` is its place in the
list of workers. -/
structure Worker where
  url : String
  pc : PC
  deriving DecidableEq, Repr

/-- Where the calling goroutine stands. -/
inductive Main
  | launching (j : Nat)                -- in the `range urls` loop, next index `j`
  | collecting (results : List result) -- at `r := <-resultsChan`
  | returned (results : List result)   -- returned; both channels are closed
  deriving DecidableEq, Repr

/-- The state of one call: the goroutines, the number of elements in the
buffer of `semaphoreChan`, the positions whose `http.Get` has been called (in
call order) and whether the program has panicked. -/
structure State where
  main : Main
  workers : List Worker
  sem : Nat
  calls : List Nat
  panicked : Bool
  deriving DecidableEq, Repr

/-- The arguments of one call, with the capacity of `semaphoreChan`. -/
structure Batch where
  urls : List String
  limit : Nat
  get : Transport

/-- The deferred `close` calls have run exactly when the call has returned. -/
def Main.closed : Main → Bool
  | .returned _ => true
  | _ => false

/-- A worker that holds a slot of `semaphoreChan`: it has sent and not yet
received. -/
def PC.holder : PC → Bool
  | .holding => true
  | .calling => true
  | .fetched _ => true
  | .posting _ => true
  | .releasing => true
  | _ => false

/-- A worker whose result has been received by the caller. -/
def PC.posted : PC → Bool
  | .releasing => true
  | .done => true
  | _ => false

/-- The number of workers holding a slot. -/
def State.holders (s : State) : Nat := s.workers.countP (fun w => w.pc.holder)

/-- A worker whose network call is in flight. -/
def PC.inFlight : PC → Bool
  | .calling => true
  | _ => false

/-- The number of network calls in flight. -/
def State.inFlight (s : State) : Nat := s.workers.countP (fun w => w.pc.inFlight)

/-- The state in which the worker `w` at place `i` has moved to `pc`. -/
def setPC (s : State) (i : Nat) (w : Worker) (pc : PC) : State :=
  { s with workers := s.workers.set i { w with pc := pc } }

/-- The state after a panic: the program is gone. -/
def crash (s : State) : State := { s with panicked := true }

/-- The next step of the calling goroutine on its own: start the next worker,
or leave the loop for the first receive.  At a receive it moves only together
with a sending worker. -/
def mainStep (b : Batch) (s : State) : Option State :=
  match s.main with
  | .launching j =>
    match b.urls[j]? with
    | some url =>
      some { s with main := .launching (j + 1), workers := s.workers ++ [{ url := url, pc := .waiting }] }
    | none => some { s with main := .collecting [] }
  | .collecting _ => none
  | .returned _ => none

/-- The next step of the worker `w` at place `i`, `none` when it is blocked
or finished. -/
def workerStep (b : Batch) (s : State) (i : Nat) (w : Worker) : Option State :=
  match w.pc with
  | .waiting =>
    if s.main.closed then some (crash s)
    else if s.sem < b.limit then some { setPC s i w .holding with sem := s.sem + 1 }
    else none
  | .holding => some { setPC s i w .calling with calls := s.calls ++ [i] }
  | .calling => some (setPC s i w (.fetched (b.get i w.url)))
  | .fetched g =>
    match extractLabel w.url, g.res with
    | some q, some resp => some (setPC s i w (.posting { query := q, index := i, res := resp, err := g.err }))
    | _, _ => some (crash s)
  | .posting r =>
    match s.main with
    | .launching _ => none
    | .collecting results =>
      some { setPC s i w .releasing with
        main := if (results ++ [r]).length = b.urls.length then .returned (sortSlice (results ++ [r]))
                else .collecting (results ++ [r]) }
    | .returned _ => some (crash s)
  | .releasing =>
    if 0 < s.sem then some { setPC s i w .done with sem := s.sem - 1 }
    else if s.main.closed then some (setPC s i w .done)
    else none
  | .done => none

/-- What the scheduler can pick: the caller, a worker, or (on an unbuffered
`semaphoreChan`) a sender and a receiver meeting. -/
inductive Action
  | main
  | worker (i : Nat)
  | handoff (i j : Nat)
  deriving DecidableEq, Repr

/-- One step of the program, `none` when the picked action cannot move.
Nothing moves after a panic. -/
def step (b : Batch) (s : State) (a : Action) : Option State :=
  if s.panicked then none
  else
    match a with
    | .main => mainStep b s
    | .worker i =>
      match s.workers[i]? with
      | some w => workerStep b s i w
      | none => none
    | .handoff i j =>
      match s.workers[i]?, s.workers[j]? with
      | some wi, some wj =>
        if b.limit = 0 ∧ s.main.closed = false ∧ wi.pc = .waiting ∧ wj.pc = .releasing then
          some (setPC (setPC s i wi .holding) j wj .done)
        else none
      | _, _ => none

/-- Every action the scheduler may try in a state. -/
def actions (s : State) : List Action :=
  Action.main :: ((List.range s.workers.length).map Action.worker ++
    (List.range s.workers.length).flatMap fun i =>
      (List.range s.workers.length).map fun j => Action.handoff i j)

/-- The states one step away. -/
def enabled (b : Batch) (s : State) : List State := (actions s).filterMap (step b s)

/-- The run under a schedule: each number picks one of the possible steps; the
run stops where no step is possible. -/
def runSched (b : Batch) : List Nat → State → State
  | [], s => s
  | c :: cs, s =>
    match (enabled b s)[c % (enabled b s).length]? with
    | some t => runSched b cs t
    | none => s

/-- The state at the start of the `range urls` loop. -/
def initState : State :=
  { main := .launching 0, workers := [], sem := 0, calls := [], panicked := false }

/-- The call `make(chan struct{}, concurrencyLimit)`: the capacity, `none` for
the panic on a negative size. -/
def makeChan (concurrencyLimit : Int) : Option Nat :=
  if concurrencyLimit < 0 then none else some concurrencyLimit.toNat

/-- The Go function `FetchContentParallel` under a network and a schedule:
the state the call is in when the schedule is used up or nothing can move. -/
def FetchContentParallel (get : Transport) (sched : List Nat) (urls : List String)
    (concurrencyLimit : Int) : State :=
  match makeChan concurrencyLimit with
  | none => crash initState
  | some limit => runSched { urls := urls, limit := limit, get := get } sched initState

/-- The states a call can be in. -/
inductive Reachable (b : Batch) : State → Prop
  | start : Reachable b initState
  | next (s t : State) (a : Action) : Reachable b s → step b s a = some t → Reachable b t

/-! ## The result consumer (`WriteResponse`) -/

/-- The Go struct `ASNRouteInformation`: one record of the log. -/
structure ASNRouteInformation where
  ASN : String
  Data : String
  deriving DecidableEq, Repr

/-- What the first loop of `WriteResponse` does that can be seen from outside:
a call of `ioutil.ReadAll` on the body of the outcome at a place of the batch,
and the message `failed to read body` printed with an outcome's `index`. -/
inductive Event
  | readAll (place : Nat)
  | report (index : Nat)
  deriving DecidableEq, Repr

/-- The slice `responses` and the events so far. -/
structure Written where
  responses : List ASNRouteInformation
  events : List Event
  deriving DecidableEq, Repr

/-- The loop `for _, r := range results` of `WriteResponse` from place `k` on.
`none` stands for the nil dereference of `ioutil.ReadAll` on a nil body.  The
field `err` of an outcome is not looked at. -/
def writeLoop : Nat → List result → Written → Option Written
  | _, [], acc => some acc
  | k, r :: rest, acc =>
    match r.res.Body with
    | none => none
    | some body =>
      match body.content with
      | none =>
        writeLoop (k + 1) rest
          { acc with events := acc.events ++ [Event.readAll k, Event.report r.index] }
      | some data =>
        writeLoop (k + 1) rest
          { responses := acc.responses ++ [{ ASN := r.query, Data := data }],
            events := acc.events ++ [Event.readAll k] }

/-- The Go function `WriteResponse` up to the point where `responses` is
complete; the rest of the function writes one line per element of `responses`,
in order.  `dirOk` says whether `ensureDir` succeeded; `none` stands for a
panic. -/
def WriteResponse (dirOk : Bool) (results : List result) : Option Written :=
  if dirOk then writeLoop 0 results { responses := [], events := [] } else none

/-! ## Definitions the properties are stated with -/

/-- A network in which the call for the target of label `A2` fails and every
other call succeeds. -/
def stubGet : Transport := fun _ url =>
  if extractLabel url = some "A2" then { res := none, err := some "connection refused" }
  else { res := some { StatusCode := 200, Body := some { content := some url } }, err := none }

/-- A network in which every call succeeds. -/
def okGet : Transport := fun _ url =>
  { res := some { StatusCode := 200, Body := some { content := some url } }, err := none }

/-- The part of the template before its separator. -/
def templateHead : List Char :=
  "https://stat.ripe.net/data/announced-prefixes/data.json?resource".data

/-- The order `sortSlice` sorts by: `a` may stand before `b`. -/
def notAfter (a b : result) : Prop := ¬ less b a

instance : DecidableRel notAfter := fun a b => inferInstanceAs (Decidable (¬ less b a))

instance : IsTotal result notAfter :=
  ⟨fun a b => by unfold notAfter less; omega⟩

instance : IsTrans result notAfter :=
  ⟨fun a b c => by unfold notAfter less; omega⟩

/-- A list of results in ascending order of `index` (equal neighbours
allowed). -/
def Ascending (l : List result) : Prop := List.Sorted notAfter l

/-- The worker has called `http.Get`. -/
def PC.called : PC → Bool
  | .waiting => false
  | .holding => false
  | _ => true

/-- The result the worker of place `i` builds from its target and from what
the network returned to it. -/
def IsOutcome (b : Batch) (i : Nat) (r : result) : Prop :=
  r.index = i ∧ ∃ u, b.urls[i]? = some u ∧ extractLabel u = some r.query ∧
    (b.get i u).res = some r.res ∧ (b.get i u).err = r.err

/-- What holds of the worker at place `i`. -/
def WorkerInv (b : Batch) (i : Nat) (w : Worker) : Prop :=
  b.urls[i]? = some w.url ∧
  match w.pc with
  | .fetched g => g = b.get i w.url
  | .posting r => IsOutcome b i r
  | .releasing => ∃ r, IsOutcome b i r
  | .done => ∃ r, IsOutcome b i r
  | _ => True

/-- What holds of the caller and the results it has received. -/
def MainInv (b : Batch) (s : State) : Prop :=
  match s.main with
  | .launching j =>
    s.workers.length = j ∧ j ≤ b.urls.length ∧
      ∀ (i : Nat) (w : Worker), s.workers[i]? = some w → w.pc.posted = false
  | .collecting rs =>
    s.workers.length = b.urls.length ∧ rs.length = s.workers.countP (fun w => w.pc.posted) ∧
      (b.urls ≠ [] → rs.length < b.urls.length) ∧ (rs.map (·.index)).Nodup ∧
      ∀ r ∈ rs, IsOutcome b r.index r ∧ ∀ w : Worker, s.workers[r.index]? = some w → w.pc.posted = true
  | .returned rs =>
    s.workers.length = b.urls.length ∧ (∀ (i : Nat) (w : Worker), s.workers[i]? = some w → w.pc.posted = true) ∧
      rs.length = b.urls.length ∧ ∀ i, i < b.urls.length → ∃ r, rs[i]? = some r ∧ IsOutcome b i r

/-- The invariant of a call. -/
structure Inv (b : Batch) (s : State) : Prop where
  sem : s.sem = s.holders
  cap : s.sem ≤ b.limit
  workers : ∀ (i : Nat) (w : Worker), s.workers[i]? = some w → WorkerInv b i w
  main : MainInv b s
  calls : ∀ (i : Nat) (w : Worker), s.workers[i]? = some w → w.pc.called = true → i ∈ s.calls
  panic : s.panicked = true →
    ∃ i u, i ∈ s.calls ∧ b.urls[i]? = some u ∧ (extractLabel u = none ∨ (b.get i u).res = none)

/-- The number of steps a worker has left. -/
def PC.rank : PC → Nat
  | .waiting => 6
  | .holding => 5
  | .calling => 4
  | .fetched _ => 3
  | .posting _ => 2
  | .releasing => 1
  | .done => 0

/-- The steps left to the caller on its own and to the workers it has not
started, for `n` targets. -/
def Main.rank (n : Nat) : Main → Nat
  | .launching j => 7 * (n - j) + 1
  | _ => 0

/-- A bound on the number of steps a state has left. -/
def State.stepsLeft (b : Batch) (s : State) : Nat :=
  if s.panicked then 0
  else 1 + s.main.rank b.urls.length + (s.workers.map (fun w => w.pc.rank)).sum

/-- The record `WriteResponse` emits for an outcome: one when the body can be
read, none otherwise. -/
def recordOf (r : result) : Option ASNRouteInformation :=
  match r.res.Body with
  | some body => body.content.map fun data => { ASN := r.query, Data := data }
  | none => none

/-- The events of the outcome at place `k`: one read, and a report when the
read fails. -/
def eventsOf (k : Nat) (r : result) : List Event :=
  match r.res.Body with
  | some body =>
    match body.content with
    | some _ => [Event.readAll k]
    | none => [Event.readAll k, Event.report r.index]
  | none => []

/-- The events of a whole batch from place `k` on. -/
def eventsFrom : Nat → List result → List Event
  | _, [] => []
  | k, r :: rest => eventsOf k r ++ eventsFrom (k + 1) rest

/-- The places whose body was read, in the order of the reads. -/
def readPlaces (events : List Event) : List Nat :=
  events.filterMap fun e => match e with
    | .readAll k => some k
    | .report _ => none

/-- The indices reported as failed, in the order of the reports. -/
def reported (events : List Event) : List Nat :=
  events.filterMap fun e => match e with
    | .report i => some i
    | .readAll _ => none

/-! ## Facts about splitting -/

/-- The model of `strings.Split`, of the reader and of the label on a few
inputs. -/
theorem split_examples :
    stringsSplit "a=b=c" '=' = ["a", "b", "c"] ∧
    stringsSplit "" ' ' = [""] ∧
    stringsSplit "abc" '=' = ["abc"] ∧
    stringsSplit "=" '=' = ["", ""] ∧
    extractLabel (RequestURITemplate ++ "AS1") = some "AS1" ∧
    extractLabel "abc" = none := by
  decide

theorem stringsIndex_of_not_mem (sep : Char) (s : List Char) (h : sep ∉ s) :
    stringsIndex sep s = none := by
  induction s with
  | nil => rfl
  | cons c cs ih =>
    have hc : c ≠ sep := fun e => h (by simp [e])
    have hcs : sep ∉ cs := fun e => h (by simp [e])
    simp [stringsIndex, hc, ih hcs]

theorem stringsIndex_append_cons (sep : Char) (t r : List Char) (h : sep ∉ t) :
    stringsIndex sep (t ++ sep :: r) = some t.length := by
  induction t with
  | nil => simp [stringsIndex]
  | cons c cs ih =>
    have hc : c ≠ sep := fun e => h (by simp [e])
    have hcs : sep ∉ cs := fun e => h (by simp [e])
    simp [stringsIndex, hc, ih hcs]

theorem first_occurrence (sep : Char) (s : List Char) (h : sep ∈ s) :
    ∃ t r, s = t ++ sep :: r ∧ sep ∉ t := by
  induction s with
  | nil => simp at h
  | cons c cs ih =>
    by_cases hc : c = sep
    · exact ⟨[], cs, by simp [hc], by simp⟩
    · have hcs : sep ∈ cs := by
        rcases List.mem_cons.1 h with e | e
        · exact absurd e.symm hc
        · exact e
      obtain ⟨t, r, e, ht⟩ := ih hcs
      refine ⟨c :: t, r, by simp [e], ?_⟩
      intro hm
      rcases List.mem_cons.1 hm with e2 | e2
      · exact hc e2.symm
      · exact ht e2

theorem genSplitLoop_cut (sep : Char) (n : Nat) (t r : List Char) (h : sep ∉ t) :
    genSplitLoop sep (n + 1) (t ++ sep :: r) = t :: genSplitLoop sep n r := by
  simp [genSplitLoop, stringsIndex_append_cons sep t r h]

theorem genSplitLoop_length (sep : Char) (s : List Char) :
    (genSplitLoop sep (s.count sep) s).length = s.count sep + 1 := by
  generalize hn : s.count sep = n
  induction n generalizing s with
  | zero => simp [genSplitLoop]
  | succ n ih =>
    have hmem : sep ∈ s := by
      apply List.count_pos_iff.1
      omega
    obtain ⟨t, r, e, ht⟩ := first_occurrence sep s hmem
    subst e
    have hr : r.count sep = n := by
      have h0 : t.count sep = 0 := List.count_eq_zero.2 ht
      simp [List.count_append, h0] at hn
      exact hn
    rw [genSplitLoop_cut sep n t r ht]
    simp [ih r hr]

theorem stringsSplit_length (s : String) (sep : Char) :
    (stringsSplit s sep).length = s.data.count sep + 1 := by
  simp [stringsSplit, genSplitLoop_length]

theorem stringsSplit_one_sep (sep : Char) (t r : List Char) (ht : sep ∉ t) (hr : sep ∉ r) :
    stringsSplit (String.mk (t ++ sep :: r)) sep = [String.mk t, String.mk r] := by
  have hc : (t ++ sep :: r).count sep = 1 := by
    simp [List.count_append, List.count_eq_zero.2 ht, List.count_eq_zero.2 hr]
  simp [stringsSplit, hc, genSplitLoop_cut sep 0 t r ht, genSplitLoop]

/-- The template is its part before the separator followed by one `=`. -/
theorem template_data : RequestURITemplate.data = templateHead ++ ['='] := by
  decide

theorem templateHead_no_sep : '=' ∉ templateHead := by
  decide

theorem extractLabel_template (s : String) (h : '=' ∉ s.data) :
    extractLabel (RequestURITemplate ++ s) = some s := by
  have e : RequestURITemplate ++ s = String.mk (templateHead ++ '=' :: s.data) := by
    apply String.ext
    rw [String.data_append, template_data]
    simp
  rw [extractLabel, e, stringsSplit_one_sep '=' _ _ templateHead_no_sep h]
  rfl

theorem template_split_length (s : String) :
    2 ≤ (stringsSplit (RequestURITemplate ++ s) '=').length := by
  rw [stringsSplit_length, String.data_append, List.count_append, template_data,
    List.count_append]
  have h1 : List.count '=' ['='] = 1 := by decide
  omega

theorem mem_PrepareURLs (queries : List ASN) (u : String) (h : u ∈ PrepareURLs queries) :
    ∃ q ∈ queries, q.ASPrefixedNumber ≠ "" ∧ u = RequestURITemplate ++ q.ASPrefixedNumber := by
  induction queries with
  | nil => simp [PrepareURLs] at h
  | cons q qs ih =>
    unfold PrepareURLs at h
    split at h
    · rcases List.mem_cons.1 h with e | e
      · exact ⟨q, by simp, by assumption, e⟩
      · obtain ⟨q2, hq, hne, hu⟩ := ih e
        exact ⟨q2, by simp [hq], hne, hu⟩
    · obtain ⟨q2, hq, hne, hu⟩ := ih h
      exact ⟨q2, by simp [hq], hne, hu⟩

/-! ## Facts about the reordering step -/

theorem sortSlice_perm (l : List result) : (sortSlice l).Perm l :=
  List.perm_insertionSort _ l

theorem sortSlice_ascending (l : List result) : Ascending (sortSlice l) :=
  List.sorted_insertionSort notAfter l

theorem sortSlice_length (l : List result) : (sortSlice l).length = l.length :=
  (sortSlice_perm l).length_eq

theorem ascending_map_index {l : List result} (h : Ascending l) :
    List.Sorted (· ≤ ·) (l.map (·.index)) := by
  unfold Ascending List.Sorted at h
  unfold List.Sorted
  rw [List.pairwise_map]
  exact h.imp (fun {a b} hab => by unfold notAfter less at hab; omega)

/-- Two orderings of the same results with the same keys in the same places
are equal when no key occurs twice. -/
theorem eq_of_perm_of_map_index : ∀ (l₁ l₂ : List result), l₁.Perm l₂ →
    l₁.map (·.index) = l₂.map (·.index) → (l₁.map (·.index)).Nodup → l₁ = l₂
  | [], l₂, hp, _, _ => by simpa using hp.symm.eq_nil
  | a :: l₁, [], hp, _, _ => by simpa using hp.eq_nil
  | a :: l₁, c :: l₂, hp, hm, hn => by
    have hinj := List.inj_on_of_nodup_map hn
    simp only [List.map_cons, List.cons.injEq] at hm
    have hc : c ∈ a :: l₁ := hp.symm.subset (by simp)
    have hac : a = c := hinj (by simp) hc hm.1
    subst hac
    have hp2 : l₁.Perm l₂ := (List.perm_cons a).1 hp
    rw [eq_of_perm_of_map_index l₁ l₂ hp2 hm.2 (List.nodup_cons.1 hn).2]

/-- Any two ascending orderings of the same results agree when no index
occurs twice: the reordering step has one possible outcome. -/
theorem ascending_unique (l₁ l₂ : List result) (hp : l₁.Perm l₂) (h₁ : Ascending l₁)
    (h₂ : Ascending l₂) (hn : (l₁.map (·.index)).Nodup) : l₁ = l₂ := by
  apply eq_of_perm_of_map_index l₁ l₂ hp _ hn
  exact List.eq_of_perm_of_sorted (hp.map _) (ascending_map_index h₁) (ascending_map_index h₂)

/-- The keys of `n` results with distinct indices below `n` come out of the
sort as `0, 1, ..., n - 1`. -/
theorem sortSlice_map_index (l : List result) (hn : (l.map (·.index)).Nodup)
    (hlt : ∀ r ∈ l, r.index < l.length) :
    (sortSlice l).map (·.index) = List.range l.length := by
  have hperm : ((sortSlice l).map (·.index)).Perm (List.range l.length) := by
    refine ((sortSlice_perm l).map _).trans ?_
    apply (List.subperm_of_subset hn ?_).perm_of_length_le
    · simp
    · intro x hx
      obtain ⟨r, hr, rfl⟩ := List.mem_map.1 hx
      exact List.mem_range.2 (hlt r hr)
  exact List.eq_of_perm_of_sorted hperm (ascending_map_index (sortSlice_ascending l))
    (List.sorted_le_range _)

theorem sortSlice_getElem (l : List result) (hn : (l.map (·.index)).Nodup)
    (hlt : ∀ r ∈ l, r.index < l.length) (i : Nat) (hi : i < l.length) :
    ∃ r, (sortSlice l)[i]? = some r ∧ r ∈ l ∧ r.index = i := by
  have hlen : i < (sortSlice l).length := by rw [sortSlice_length]; exact hi
  refine ⟨(sortSlice l)[i], List.getElem?_eq_getElem hlen,
    (sortSlice_perm l).subset (List.getElem_mem hlen), ?_⟩
  have h := congrArg (fun m => m[i]?) (sortSlice_map_index l hn hlt)
  simp only [List.getElem?_map, List.getElem?_eq_getElem hlen, List.getElem?_range hi,
    Option.map_some] at h
  exact Option.some.inj h

/-! ## Invariants of a call -/

theorem countP_set (p : Worker → Bool) : ∀ (l : List Worker) (i : Nat) (v w : Worker),
    l[i]? = some v →
    (l.set i w).countP p + (if p v then 1 else 0) = l.countP p + (if p w then 1 else 0)
  | [], i, v, w, h => by simp at h
  | a :: l, 0, v, w, h => by
    simp at h
    subst h
    simp [List.countP_cons]
    omega
  | a :: l, i + 1, v, w, h => by
    simp at h
    have ih := countP_set p l i v w h
    simp [List.countP_cons]
    omega

theorem sum_map_set (f : Worker → Nat) : ∀ (l : List Worker) (i : Nat) (v w : Worker),
    l[i]? = some v → ((l.set i w).map f).sum + f v = (l.map f).sum + f w
  | [], i, v, w, h => by simp at h
  | a :: l, 0, v, w, h => by
    simp at h
    subst h
    simp
    omega
  | a :: l, i + 1, v, w, h => by
    simp at h
    have ih := sum_map_set f l i v w h
    simp only [List.set_cons_succ, List.map_cons, List.sum_cons]
    omega

theorem forall_set {P : Nat → Worker → Prop} (l : List Worker) (i : Nat) (v : Worker)
    (hall : ∀ j x, l[j]? = some x → P j x) (hnew : P i v) :
    ∀ j x, (l.set i v)[j]? = some x → P j x := by
  intro j x hx
  rw [List.getElem?_set] at hx
  split at hx
  · split at hx
    · next hij _ =>
      subst hij
      cases hx
      exact hnew
    · cases hx
  · exact hall j x hx

theorem getElem?_set_self_of_some (l : List Worker) (i : Nat) (w v : Worker) (h : l[i]? = some w) :
    (l.set i v)[i]? = some v := by
  have hi : i < l.length := by
    by_contra hc
    rw [List.getElem?_eq_none (by omega)] at h
    cases h
  simp [List.getElem?_set, hi]

theorem inv_init (b : Batch) : Inv b initState where
  sem := by simp [initState, State.holders]
  cap := by simp [initState]
  workers := by intro i w h; simp [initState] at h
  main := by simp [MainInv, initState]
  calls := by intro i w h; simp [initState] at h
  panic := by intro h; simp [initState] at h

theorem inv_mainStep (b : Batch) (s t : State) (h : Inv b s) (hs : mainStep b s = some t) :
    Inv b t := by
  have hmain := h.main
  unfold mainStep at hs
  unfold MainInv at hmain
  split at hs
  · next j hj =>
    rw [hj] at hmain
    simp only at hmain
    obtain ⟨hlen, hle, hpost⟩ := hmain
    split at hs
    · next url hu =>
      cases hs
      have hjlt : j < b.urls.length := by
        by_contra hc
        rw [List.getElem?_eq_none (by omega)] at hu
        cases hu
      have hget : ∀ (i : Nat) (w : Worker),
          (s.workers ++ [{ url := url, pc := PC.waiting }])[i]? = some w →
          s.workers[i]? = some w ∨ (i = j ∧ w = { url := url, pc := PC.waiting }) := by
        intro i w hw
        rw [List.getElem?_append] at hw
        split at hw
        · exact Or.inl hw
        · next hge =>
          right
          have hi : i - s.workers.length = 0 := by
            by_contra hc
            rw [List.getElem?_eq_none (by simp; omega)] at hw
            cases hw
          rw [hi] at hw
          simp at hw
          exact ⟨by omega, hw.symm⟩
      refine ⟨?_, h.cap, ?_, ?_, ?_, h.panic⟩
      · simp [State.holders, PC.holder]
        exact h.sem
      · intro i w hw
        rcases hget i w hw with h1 | ⟨h1, h2⟩
        · exact h.workers i w h1
        · subst h1 h2
          exact ⟨hu, trivial⟩
      · simp only [MainInv]
        refine ⟨by simp [hlen], hjlt, ?_⟩
        intro i w hw
        rcases hget i w hw with h1 | ⟨h1, h2⟩
        · exact hpost i w h1
        · subst h2
          rfl
      · intro i w hw hc
        rcases hget i w hw with h1 | ⟨h1, h2⟩
        · exact h.calls i w h1 hc
        · subst h2
          cases hc
    · next hu =>
      cases hs
      have hjn : j = b.urls.length := by
        rcases Nat.lt_or_ge j b.urls.length with hlt | hge
        · rw [List.getElem?_eq_getElem hlt] at hu
          cases hu
        · omega
      refine ⟨h.sem, h.cap, h.workers, ?_, h.calls, h.panic⟩
      simp only [MainInv]
      refine ⟨by omega, ?_, ?_, by simp, by simp⟩
      · symm
        simp only [List.length_nil]
        rw [List.countP_eq_zero]
        intro w hw
        obtain ⟨i, hi, rfl⟩ := List.getElem_of_mem hw
        simp [hpost i _ (List.getElem?_eq_getElem hi)]
      · intro hne
        simp only [List.length_nil]
        exact List.length_pos.2 hne
  · cases hs
  · cases hs

theorem posted_set (l : List Worker) (i k : Nat) (w v : Worker) (hw : l[i]? = some w)
    (hv : w.pc.posted = true → v.pc.posted = true)
    (hk : ∀ w0 : Worker, l[k]? = some w0 → w0.pc.posted = true) :
    ∀ w0 : Worker, (l.set i v)[k]? = some w0 → w0.pc.posted = true := by
  intro w0 h0
  rw [List.getElem?_set] at h0
  split at h0
  · next hik =>
    subst hik
    split at h0
    · cases h0
      exact hv (hk w hw)
    · cases h0
  · exact hk w0 h0

theorem mainInv_local (b : Batch) (s t : State) (i : Nat) (w : Worker) (pc : PC)
    (hw : s.workers[i]? = some w) (hp : pc.posted = w.pc.posted) (hm : MainInv b s)
    (hmain : t.main = s.main) (hwk : t.workers = s.workers.set i { w with pc := pc }) :
    MainInv b t := by
  unfold MainInv at hm ⊢
  rw [hmain, hwk]
  have hcount : (s.workers.set i { w with pc := pc }).countP (fun w => w.pc.posted) =
      s.workers.countP (fun w => w.pc.posted) := by
    have h := countP_set (fun w => w.pc.posted) s.workers i w { w with pc := pc } hw
    simp only [hp] at h
    omega
  split
  · next j hj =>
    rw [hj] at hm
    obtain ⟨h1, h2, h3⟩ := hm
    refine ⟨by simpa using h1, h2, ?_⟩
    exact forall_set s.workers i _ h3 (by rw [hp]; exact h3 i w hw)
  · next rs hj =>
    rw [hj] at hm
    obtain ⟨h1, h2, h3, h4, h5⟩ := hm
    refine ⟨by simpa using h1, by rw [hcount]; exact h2, h3, h4, ?_⟩
    intro r hr
    refine ⟨(h5 r hr).1, ?_⟩
    exact posted_set s.workers i r.index w _ hw (fun hh => by rw [hp]; exact hh) (h5 r hr).2
  · next rs hj =>
    rw [hj] at hm
    obtain ⟨h1, h2, h3, h4⟩ := hm
    refine ⟨by simpa using h1, ?_, h3, h4⟩
    exact forall_set s.workers i _ h2 (by rw [hp]; exact h2 i w hw)

/-- A step of one worker on its own that keeps it on its side of the post. -/
theorem inv_local (b : Batch) (s : State) (i : Nat) (w : Worker) (pc : PC) (sem : Nat)
    (calls : List Nat) (h : Inv b s) (hw : s.workers[i]? = some w)
    (hp : pc.posted = w.pc.posted)
    (hsem : sem + (if w.pc.holder then 1 else 0) = s.sem + (if pc.holder then 1 else 0))
    (hcap : sem ≤ b.limit) (hwinv : WorkerInv b i { w with pc := pc })
    (hcalls : ∀ j ∈ s.calls, j ∈ calls) (hcalled : pc.called = true → i ∈ calls) :
    Inv b { main := s.main, workers := s.workers.set i { w with pc := pc }, sem := sem,
            calls := calls, panicked := s.panicked } where
  sem := by
    have hc := countP_set (fun w => w.pc.holder) s.workers i w { w with pc := pc } hw
    have hs := h.sem
    simp only [State.holders] at hs ⊢
    simp only at hc
    omega
  cap := hcap
  workers := forall_set s.workers i _ h.workers hwinv
  main := mainInv_local b s _ i w pc hw hp h.main rfl rfl
  calls := by
    apply forall_set s.workers i _ (P := fun j x => x.pc.called = true → j ∈ calls)
    · intro j x hx hc
      exact hcalls j (h.calls j x hx hc)
    · exact hcalled
  panic := by
    intro hpan
    obtain ⟨j, u, hj, hu⟩ := h.panic hpan
    exact ⟨j, u, hcalls j hj, hu⟩

theorem inv_crash (b : Batch) (s : State) (h : Inv b s)
    (hbad : ∃ i u, i ∈ s.calls ∧ b.urls[i]? = some u ∧
      (extractLabel u = none ∨ (b.get i u).res = none)) :
    Inv b (crash s) where
  sem := h.sem
  cap := h.cap
  workers := h.workers
  main := h.main
  calls := h.calls
  panic := fun _ => hbad

/-- Once the call has returned every worker has posted. -/
theorem posted_of_closed (b : Batch) (s : State) (h : Inv b s) (hc : s.main.closed = true)
    (i : Nat) (w : Worker) (hw : s.workers[i]? = some w) : w.pc.posted = true := by
  have hm := h.main
  unfold MainInv at hm
  split at hm
  · next j hj => rw [hj] at hc; cases hc
  · next rs hj => rw [hj] at hc; cases hc
  · exact hm.2.1 i w hw

theorem holder_pos (s : State) (i : Nat) (w : Worker) (hw : s.workers[i]? = some w)
    (hh : w.pc.holder = true) : 0 < s.holders := by
  unfold State.holders
  rw [List.countP_pos_iff]
  exact ⟨w, List.getElem?_mem hw, hh⟩

theorem isOutcome_index_lt (b : Batch) (i : Nat) (r : result) (h : IsOutcome b i r) :
    i < b.urls.length := by
  obtain ⟨_, u, hu, _⟩ := h
  by_contra hc
  rw [List.getElem?_eq_none (by omega)] at hu
  cases hu

/-- The rendezvous on `resultsChan`: the worker at place `i` hands its result
to the caller, which appends it and returns the sorted list once it holds as
many results as there are targets. -/
theorem inv_post (b : Batch) (s : State) (i : Nat) (w : Worker) (r : result)
    (rs : List result) (h : Inv b s) (hw : s.workers[i]? = some w) (hpc : w.pc = .posting r)
    (hmain : s.main = .collecting rs) :
    Inv b { setPC s i w .releasing with
      main := if (rs ++ [r]).length = b.urls.length then .returned (sortSlice (rs ++ [r]))
              else .collecting (rs ++ [r]) } := by
  have hm := h.main
  unfold MainInv at hm
  rw [hmain] at hm
  obtain ⟨hlen, hcnt, _, hnd, hrs⟩ := hm
  have hout : IsOutcome b i r := by
    have := (h.workers i w hw).2
    rw [hpc] at this
    exact this
  have hcount : (s.workers.set i { w with pc := PC.releasing }).countP (fun w => w.pc.posted) =
      s.workers.countP (fun w => w.pc.posted) + 1 := by
    have hc := countP_set (fun w => w.pc.posted) s.workers i w { w with pc := PC.releasing } hw
    simp only [hpc, PC.posted] at hc
    simpa using hc
  have hlen2 : (rs ++ [r]).length =
      (s.workers.set i { w with pc := PC.releasing }).countP (fun w => w.pc.posted) := by
    rw [hcount, List.length_append, hcnt]
    rfl
  have hnd2 : ((rs ++ [r]).map (·.index)).Nodup := by
    rw [List.map_append, List.nodup_append]
    refine ⟨hnd, by simp, ?_⟩
    intro a ha ha2
    simp only [List.map_cons, List.map_nil, List.mem_singleton] at ha2
    obtain ⟨r0, hr0, rfl⟩ := List.mem_map.1 ha
    have hp := (hrs r0 hr0).2 w (by rw [ha2, hout.1]; exact hw)
    rw [hpc] at hp
    cases hp
  have hrs2 : ∀ r0 ∈ rs ++ [r], IsOutcome b r0.index r0 ∧
      ∀ w0 : Worker, (s.workers.set i { w with pc := PC.releasing })[r0.index]? = some w0 →
        w0.pc.posted = true := by
    intro r0 hr0
    rcases List.mem_append.1 hr0 with h1 | h1
    · refine ⟨(hrs r0 h1).1, ?_⟩
      exact posted_set s.workers i r0.index w _ hw (fun _ => rfl) (hrs r0 h1).2
    · simp only [List.mem_singleton] at h1
      subst h1
      refine ⟨by rw [hout.1]; exact hout, ?_⟩
      intro w0 h0
      rw [hout.1, getElem?_set_self_of_some s.workers i w _ hw] at h0
      cases h0
      rfl
  refine ⟨?_, h.cap, ?_, ?_, ?_, h.panic⟩
  · have hc := countP_set (fun w => w.pc.holder) s.workers i w { w with pc := PC.releasing } hw
    have hs := h.sem
    have e1 : w.pc.holder = true := by rw [hpc]; rfl
    have e2 : PC.releasing.holder = true := rfl
    simp only [e1, e2] at hc
    simp only [State.holders, setPC] at hs ⊢
    omega
  · exact forall_set s.workers i _ h.workers ⟨(h.workers i w hw).1, r, hout⟩
  · unfold MainInv
    simp only [setPC]
    by_cases hfull : (rs ++ [r]).length = b.urls.length
    · rw [if_pos hfull]
      simp only
      have hall : ∀ a ∈ s.workers.set i { w with pc := PC.releasing }, a.pc.posted = true := by
        apply List.countP_eq_length.1
        rw [← hlen2, hfull, List.length_set, hlen]
      refine ⟨by simpa using hlen, ?_, by rw [sortSlice_length]; exact hfull, ?_⟩
      · intro j x hx
        exact hall x (List.getElem?_mem hx)
      · intro k hk
        have hlt : ∀ r0 ∈ rs ++ [r], r0.index < (rs ++ [r]).length := by
          intro r0 hr0
          rw [hfull]
          exact isOutcome_index_lt b _ r0 (hrs2 r0 hr0).1
        obtain ⟨r0, h1, h2, h3⟩ := sortSlice_getElem (rs ++ [r]) hnd2 hlt k (by rw [hfull]; exact hk)
        refine ⟨r0, h1, ?_⟩
        rw [← h3]
        exact (hrs2 r0 h2).1
    · rw [if_neg hfull]
      simp only
      refine ⟨by simpa using hlen, hlen2, ?_, hnd2, hrs2⟩
      intro _
      have hle := List.countP_le_length (fun w : Worker => w.pc.posted)
        (l := s.workers.set i { w with pc := PC.releasing })
      rw [← hlen2, List.length_set, hlen] at hle
      omega
  · apply forall_set s.workers i _ (P := fun j x => x.pc.called = true → j ∈ s.calls)
    · exact h.calls
    · intro _
      exact h.calls i w hw (by rw [hpc]; rfl)

theorem inv_workerStep (b : Batch) (s t : State) (i : Nat) (w : Worker) (h : Inv b s)
    (hw : s.workers[i]? = some w) (hs : workerStep b s i w = some t) : Inv b t := by
  have hurl := (h.workers i w hw).1
  unfold workerStep at hs
  split at hs
  · next hpc =>
    split at hs
    · next hcl =>
      have hp := posted_of_closed b s h hcl i w hw
      rw [hpc] at hp
      cases hp
    · split at hs
      · next hlt =>
        cases hs
        exact inv_local b s i w .holding (s.sem + 1) s.calls h hw (by rw [hpc]; rfl)
          (by rw [hpc]; simp [PC.holder]) (by omega) ⟨hurl, trivial⟩ (fun _ hj => hj)
          (by intro hc; cases hc)
      · cases hs
  · next hpc =>
    cases hs
    exact inv_local b s i w .calling s.sem (s.calls ++ [i]) h hw
      (by rw [hpc]; rfl) (by rw [hpc]; simp [PC.holder]) h.cap ⟨hurl, trivial⟩
      (fun j hj => List.mem_append_left _ hj) (fun _ => by simp)
  · next hpc =>
    cases hs
    exact inv_local b s i w (.fetched (b.get i w.url)) s.sem s.calls h hw
      (by rw [hpc]; rfl) (by rw [hpc]; simp [PC.holder]) h.cap ⟨hurl, rfl⟩
      (fun _ hj => hj) (fun _ => h.calls i w hw (by rw [hpc]; rfl))
  · next g hpc =>
    have hg : g = b.get i w.url := by
      have := (h.workers i w hw).2
      rw [hpc] at this
      exact this
    have hcalls : i ∈ s.calls := h.calls i w hw (by rw [hpc]; rfl)
    split at hs
    · next q resp hq hr =>
      cases hs
      exact inv_local b s i w (.posting { query := q, index := i, res := resp, err := g.err })
        s.sem s.calls h hw (by rw [hpc]; rfl) (by rw [hpc]; simp [PC.holder]) h.cap
        ⟨hurl, rfl, w.url, hurl, hq, by rw [← hg]; exact hr, by rw [← hg]⟩ (fun _ hj => hj)
        (fun _ => hcalls)
    · next hno =>
      cases hs
      apply inv_crash b s h
      refine ⟨i, w.url, hcalls, hurl, ?_⟩
      rw [← hg]
      cases hq : extractLabel w.url with
      | none => exact Or.inl rfl
      | some q =>
        cases hr : g.res with
        | none => exact Or.inr rfl
        | some resp => exact absurd hr (hno q resp hq)
  · next r hpc =>
    split at hs
    · cases hs
    · next rs hmain =>
      cases hs
      exact inv_post b s i w r rs h hw hpc hmain
    · next rs hmain =>
      have hp := posted_of_closed b s h (by rw [hmain]; rfl) i w hw
      rw [hpc] at hp
      cases hp
  · next hpc =>
    have hpos : 0 < s.sem := by
      rw [h.sem]
      exact holder_pos s i w hw (by rw [hpc]; rfl)
    rw [if_pos hpos] at hs
    cases hs
    exact inv_local b s i w .done (s.sem - 1) s.calls h hw (by rw [hpc]; rfl)
      (by rw [hpc]; simp [PC.holder]; omega) (by have := h.cap; omega)
      ⟨hurl, by have := (h.workers i w hw).2; rw [hpc] at this; exact this⟩ (fun _ hj => hj)
      (fun _ => h.calls i w hw (by rw [hpc]; rfl))
  · cases hs

theorem inv_step (b : Batch) (s t : State) (a : Action) (h : Inv b s)
    (hs : step b s a = some t) : Inv b t := by
  unfold step at hs
  split at hs
  · cases hs
  · split at hs
    · exact inv_mainStep b s t h hs
    · next i =>
      split at hs
      · next w hw => exact inv_workerStep b s t i w h hw hs
      · cases hs
    · next i j =>
      split at hs
      · next wi wj hi hj =>
        split at hs
        · next hc =>
          exfalso
          have hpos : 0 < s.holders := holder_pos s j wj hj (by rw [hc.2.2.2]; rfl)
          have h1 := h.sem
          have h2 := h.cap
          omega
        · cases hs
      · cases hs

theorem reachable_inv (b : Batch) (s : State) (h : Reachable b s) : Inv b s := by
  induction h with
  | start => exact inv_init b
  | next s t a _ hs ih => exact inv_step b s t a ih hs

/-! ## Every run ends -/

theorem stepsLeft_crash (b : Batch) (s : State) (h : s.panicked = false) :
    (crash s).stepsLeft b < s.stepsLeft b := by
  simp [State.stepsLeft, crash, h]

theorem stepsLeft_local (b : Batch) (s : State) (i : Nat) (w : Worker) (pc : PC) (m : Main)
    (sem : Nat) (calls : List Nat) (h : s.panicked = false) (hw : s.workers[i]? = some w)
    (hr : pc.rank < w.pc.rank) (hm : m.rank b.urls.length ≤ s.main.rank b.urls.length) :
    State.stepsLeft b
        { main := m, workers := s.workers.set i { w with pc := pc }, sem := sem,
          calls := calls, panicked := s.panicked } < s.stepsLeft b := by
  have hsum := sum_map_set (fun w => w.pc.rank) s.workers i w { w with pc := pc } hw
  simp only [State.stepsLeft, h] at hsum ⊢
  simp only [Bool.false_eq_true, if_false]
  omega

theorem workerStep_decreases (b : Batch) (s t : State) (i : Nat) (w : Worker)
    (h : s.panicked = false) (hw : s.workers[i]? = some w)
    (hs : workerStep b s i w = some t) : t.stepsLeft b < s.stepsLeft b := by
  unfold workerStep at hs
  split at hs
  · next hpc =>
    split at hs
    · cases hs; exact stepsLeft_crash b s h
    · split at hs
      · cases hs
        exact stepsLeft_local b s i w .holding s.main _ _ h hw (by rw [hpc]; simp [PC.rank]) (le_refl _)
      · cases hs
  · next hpc =>
    cases hs
    exact stepsLeft_local b s i w _ s.main _ _ h hw (by rw [hpc]; simp [PC.rank]) (le_refl _)
  · next hpc =>
    cases hs
    exact stepsLeft_local b s i w _ s.main _ _ h hw (by rw [hpc]; simp [PC.rank]) (le_refl _)
  · next g hpc =>
    split at hs
    · cases hs
      exact stepsLeft_local b s i w _ s.main _ _ h hw (by rw [hpc]; simp [PC.rank]) (le_refl _)
    · cases hs; exact stepsLeft_crash b s h
  · next r hpc =>
    split at hs
    · cases hs
    · next rs hmain =>
      cases hs
      apply stepsLeft_local b s i w _ _ _ _ h hw (by rw [hpc]; simp [PC.rank])
      split <;> simp [Main.rank]
    · cases hs; exact stepsLeft_crash b s h
  · next hpc =>
    split at hs
    · cases hs
      exact stepsLeft_local b s i w _ s.main _ _ h hw (by rw [hpc]; simp [PC.rank]) (le_refl _)
    · split at hs
      · cases hs
        exact stepsLeft_local b s i w _ s.main _ _ h hw (by rw [hpc]; simp [PC.rank]) (le_refl _)
      · cases hs
  · cases hs

theorem step_decreases (b : Batch) (s t : State) (a : Action) (hs : step b s a = some t) :
    t.stepsLeft b < s.stepsLeft b := by
  unfold step at hs
  split at hs
  · cases hs
  · next hp =>
    have hp : s.panicked = false := by simpa using hp
    split at hs
    · unfold mainStep at hs
      split at hs
      · next j hj =>
        split at hs
        · next url hu =>
          cases hs
          have hjlt : j < b.urls.length := by
            by_contra hc
            rw [List.getElem?_eq_none (by omega)] at hu
            cases hu
          simp [State.stepsLeft, hp, hj, Main.rank, PC.rank]
          omega
        · cases hs
          simp [State.stepsLeft, hp, hj, Main.rank]
      · cases hs
      · cases hs
    · next i =>
      split at hs
      · next w hw => exact workerStep_decreases b s t i w hp hw hs
      · cases hs
    · next i j =>
      split at hs
      · next wi wj hi hj =>
        split at hs
        · next hc =>
          cases hs
          have hij : i ≠ j := by
            intro e
            subst e
            rw [hi] at hj
            cases hj
            rw [hc.2.2.1] at hc
            cases hc.2.2.2
          have h1 := stepsLeft_local b s i wi .holding s.main s.sem s.calls hp hi
            (by rw [hc.2.2.1]; decide) (le_refl _)
          have hj2 : (s.workers.set i { wi with pc := PC.holding })[j]? = some wj := by
            rw [List.getElem?_set_ne hij]
            exact hj
          have h2 := stepsLeft_local b (setPC s i wi .holding) j wj .done s.main s.sem s.calls hp
            hj2 (by rw [hc.2.2.2]; decide) (le_refl _)
          exact lt_trans h2 h1
        · cases hs
      · cases hs

theorem enabled_of_panicked (b : Batch) (s : State) (h : s.panicked = true) :
    enabled b s = [] := by
  unfold enabled
  rw [List.filterMap_eq_nil_iff]
  intro a _
  simp [step, h]

theorem mem_enabled (b : Batch) (s t : State) (h : t ∈ enabled b s) :
    ∃ a, step b s a = some t := by
  unfold enabled at h
  obtain ⟨a, _, ha⟩ := List.mem_filterMap.1 h
  exact ⟨a, ha⟩

/-- A schedule at least as long as the bound runs the call to a state from
which nothing can move. -/
theorem run_stops (b : Batch) : ∀ (sched : List Nat) (s : State),
    s.stepsLeft b ≤ sched.length → enabled b (runSched b sched s) = []
  | [], s, h => by
    apply enabled_of_panicked
    simp only [runSched]
    by_contra hc
    simp [State.stepsLeft, hc] at h
  | c :: cs, s, h => by
    unfold runSched
    split
    · next t ht =>
      obtain ⟨a, ha⟩ := mem_enabled b s t (List.getElem?_mem ht)
      have hd := step_decreases b s t a ha
      apply run_stops b cs t
      simp only [List.length_cons] at h
      omega
    · next hn =>
      by_contra hc
      have hpos : 0 < (enabled b s).length := List.length_pos.2 hc
      rw [List.getElem?_eq_getElem (Nat.mod_lt _ hpos)] at hn
      cases hn

theorem run_reachable (b : Batch) : ∀ (sched : List Nat) (s : State),
    Reachable b s → Reachable b (runSched b sched s)
  | [], s, h => h
  | c :: cs, s, h => by
    unfold runSched
    split
    · next t ht =>
      obtain ⟨a, ha⟩ := mem_enabled b s t (List.getElem?_mem ht)
      exact run_reachable b cs t (Reachable.next s t a h ha)
    · exact h

/-! ## No run gets stuck half way -/

theorem mem_actions_worker (s : State) (i : Nat) (h : i < s.workers.length) :
    Action.worker i ∈ actions s := by
  simp [actions, h]

theorem lt_length_of_getElem? (l : List Worker) (i : Nat) (w : Worker) (h : l[i]? = some w) :
    i < l.length := by
  by_contra hc
  rw [List.getElem?_eq_none (by omega)] at h
  cases h

theorem runSched_of_stuck (b : Batch) : ∀ (sched : List Nat) (s : State),
    enabled b s = [] → runSched b sched s = s
  | [], _, _ => rfl
  | c :: cs, s, h => by
    unfold runSched
    rw [h]
    simp

theorem runSched_append (b : Batch) : ∀ (xs ys : List Nat) (s : State),
    runSched b (xs ++ ys) s = runSched b ys (runSched b xs s)
  | [], _, _ => rfl
  | c :: cs, ys, s => by
    rw [List.cons_append]
    cases h : (enabled b s)[c % (enabled b s).length]? with
    | some t =>
      have e1 : runSched b (c :: (cs ++ ys)) s = runSched b (cs ++ ys) t := by
        rw [runSched, h]
      have e2 : runSched b (c :: cs) s = runSched b cs t := by
        rw [runSched, h]
      rw [e1, e2, runSched_append b cs ys t]
    | none =>
      have hnil : enabled b s = [] := by
        by_contra hc
        have hpos : 0 < (enabled b s).length := List.length_pos.2 hc
        rw [List.getElem?_eq_getElem (Nat.mod_lt _ hpos)] at h
        cases h
      rw [runSched_of_stuck b _ s hnil, runSched_of_stuck b _ s hnil,
        runSched_of_stuck b _ s hnil]

theorem mem_actions_of_step (b : Batch) (s t : State) (a : Action) (hs : step b s a = some t) :
    a ∈ actions s := by
  unfold step at hs
  split at hs
  · cases hs
  · split at hs
    · simp [actions]
    · next i =>
      split at hs
      · next w hw => exact mem_actions_worker s i (lt_length_of_getElem? _ i w hw)
      · cases hs
    · next i j =>
      split at hs
      · next wi wj hi hj =>
        have h1 := lt_length_of_getElem? _ i wi hi
        have h2 := lt_length_of_getElem? _ j wj hj
        simp only [actions, List.mem_cons, List.mem_append, List.mem_map, List.mem_range,
          List.mem_flatMap]
        right
        right
        exact ⟨i, h1, j, h2, rfl⟩
      · cases hs

/-- Every reachable state is the state of the run under some schedule: the
schedules cover every order in which the goroutines can move. -/
theorem reachable_run (b : Batch) (s : State) (h : Reachable b s) :
    ∃ sched, runSched b sched initState = s := by
  induction h with
  | start => exact ⟨[], rfl⟩
  | next s t a _ hs ih =>
    obtain ⟨sched, hsched⟩ := ih
    have hmem : t ∈ enabled b s :=
      List.mem_filterMap.2 ⟨a, mem_actions_of_step b s t a hs, hs⟩
    obtain ⟨c, hc, hget⟩ := List.getElem_of_mem hmem
    refine ⟨sched ++ [c], ?_⟩
    rw [runSched_append, hsched, runSched, Nat.mod_eq_of_lt hc, List.getElem?_eq_getElem hc, hget]
    rfl

/-- A worker that cannot move is waiting at a full gate, is posting to a
caller that is still launching, or is done. -/
theorem blocked_worker (b : Batch) (s : State) (i : Nat) (w : Worker) (h : Inv b s)
    (hw : s.workers[i]? = some w) (hs : workerStep b s i w = none) :
    (w.pc = .waiting ∧ b.limit ≤ s.sem) ∨ (w.pc.holder = true ∧ ∃ j, s.main = .launching j) ∨
      w.pc = .done := by
  unfold workerStep at hs
  split at hs
  · next hpc =>
    split at hs
    · cases hs
    · split at hs
      · cases hs
      · next hlt => exact Or.inl ⟨hpc, by omega⟩
  · cases hs
  · cases hs
  · split at hs <;> cases hs
  · next r hpc =>
    split at hs
    · next j hj => exact Or.inr (Or.inl ⟨by rw [hpc]; rfl, j, hj⟩)
    · cases hs
    · cases hs
  · next hpc =>
    have hpos : 0 < s.sem := by
      rw [h.sem]
      exact holder_pos s i w hw (by rw [hpc]; rfl)
    rw [if_pos hpos] at hs
    cases hs
  · next hpc => exact Or.inr (Or.inr hpc)

/-- With a gate of at least one slot and at least one target, a state from
which nothing can move has panicked, or the call has returned and every worker
is done. -/
theorem stuck_cases (b : Batch) (s : State) (h : Inv b s) (hk : 1 ≤ b.limit)
    (hn : b.urls ≠ []) (hstuck : enabled b s = []) :
    s.panicked = true ∨ ∃ rs, s.main = .returned rs ∧ ∀ w ∈ s.workers, w.pc = .done := by
  by_cases hp : s.panicked = true
  · exact Or.inl hp
  right
  have hall : ∀ a ∈ actions s, step b s a = none := List.filterMap_eq_nil_iff.1 hstuck
  have hmainstep : mainStep b s = none := by
    have := hall .main (by simp [actions])
    simpa [step, hp] using this
  have hworker : ∀ (i : Nat) (w : Worker), s.workers[i]? = some w → workerStep b s i w = none := by
    intro i w hw
    have := hall (.worker i) (mem_actions_worker s i (lt_length_of_getElem? _ i w hw))
    simpa [step, hp, hw] using this
  have hnolaunch : ∀ j, s.main ≠ .launching j := by
    intro j hj
    unfold mainStep at hmainstep
    rw [hj] at hmainstep
    simp only at hmainstep
    split at hmainstep <;> cases hmainstep
  have hnoholder : s.holders = 0 := by
    by_contra hc
    have hpos : 0 < s.holders := Nat.pos_of_ne_zero hc
    unfold State.holders at hpos
    obtain ⟨w, hw, hh⟩ := List.countP_pos_iff.1 hpos
    obtain ⟨i, hi⟩ := List.mem_iff_getElem?.1 hw
    rcases blocked_worker b s i w h hi (hworker i w hi) with h1 | h1 | h1
    · rw [h1.1] at hh; cases hh
    · obtain ⟨j, hj⟩ := h1.2
      exact hnolaunch j hj
    · rw [h1] at hh; cases hh
  have hdone : ∀ w ∈ s.workers, w.pc = .done := by
    intro w hw
    obtain ⟨i, hi⟩ := List.mem_iff_getElem?.1 hw
    rcases blocked_worker b s i w h hi (hworker i w hi) with h1 | h1 | h1
    · have := h.sem
      omega
    · obtain ⟨j, hj⟩ := h1.2
      exact absurd hj (hnolaunch j)
    · exact h1
  have hm := h.main
  unfold MainInv at hm
  split at hm
  · next j hj => exact absurd hj (hnolaunch j)
  · next rs hj =>
    exfalso
    obtain ⟨h1, h2, h3, _⟩ := hm
    have hcnt : s.workers.countP (fun w => w.pc.posted) = s.workers.length := by
      rw [List.countP_eq_length]
      intro w hw
      simp [hdone w hw, PC.posted]
    have := h3 hn
    omega
  · next rs hj => exact ⟨rs, hj, hdone⟩

/-! ## Facts about the result consumer -/

theorem writeLoop_spec : ∀ (results : List result) (k : Nat) (acc : Written),
    (∀ r ∈ results, r.res.Body ≠ none) →
    writeLoop k results acc =
      some { responses := acc.responses ++ results.filterMap recordOf,
             events := acc.events ++ eventsFrom k results }
  | [], k, acc, _ => by simp [writeLoop, eventsFrom]
  | r :: rest, k, acc, h => by
    have hr := h r (by simp)
    have hrest : ∀ r0 ∈ rest, r0.res.Body ≠ none := fun r0 h0 => h r0 (by simp [h0])
    unfold writeLoop
    cases hb : r.res.Body with
    | none => exact absurd hb hr
    | some body =>
      simp only
      cases hc : body.content with
      | none =>
        simp only
        rw [writeLoop_spec rest (k + 1) _ hrest]
        simp [eventsFrom, eventsOf, recordOf, hb, hc]
      | some data =>
        simp only
        rw [writeLoop_spec rest (k + 1) _ hrest]
        simp [eventsFrom, eventsOf, recordOf, hb, hc]

theorem readPlaces_eventsFrom : ∀ (results : List result) (k : Nat),
    (∀ r ∈ results, r.res.Body ≠ none) →
    readPlaces (eventsFrom k results) = List.range' k results.length
  | [], k, _ => by simp [eventsFrom, readPlaces]
  | r :: rest, k, h => by
    have hr := h r (by simp)
    have hrest : ∀ r0 ∈ rest, r0.res.Body ≠ none := fun r0 h0 => h r0 (by simp [h0])
    have ih := readPlaces_eventsFrom rest (k + 1) hrest
    unfold readPlaces at ih ⊢
    cases hb : r.res.Body with
    | none => exact absurd hb hr
    | some body =>
      cases hc : body.content with
      | none => simp [eventsFrom, eventsOf, hb, hc, ih, List.range'_succ]
      | some data => simp [eventsFrom, eventsOf, hb, hc, ih, List.range'_succ]

theorem reported_eventsFrom : ∀ (results : List result) (k : Nat),
    reported (eventsFrom k results) =
      (results.filter fun r => r.res.Body ≠ none ∧ recordOf r = none).map (·.index)
  | [], k => by simp [eventsFrom, reported]
  | r :: rest, k => by
    have ih := reported_eventsFrom rest (k + 1)
    unfold reported at ih ⊢
    cases hb : r.res.Body with
    | none => simp [eventsFrom, eventsOf, hb, ih, List.filter_cons]
    | some body =>
      cases hc : body.content with
      | none => simp [eventsFrom, eventsOf, recordOf, hb, hc, ih, List.filter_cons]
      | some data => simp [eventsFrom, eventsOf, recordOf, hb, hc, ih, List.filter_cons]

/-! ## What a call ends in -/

theorem extractLabel_isSome (u : String) (h : '=' ∈ u.data) : ∃ q, extractLabel u = some q := by
  have hlen := stringsSplit_length u '='
  have hpos : 0 < u.data.count '=' := List.count_pos_iff.2 h
  have h1 : 1 < (stringsSplit u '=').length := by omega
  exact ⟨_, List.getElem?_eq_getElem h1⟩

theorem extractLabel_none (u : String) (h : '=' ∉ u.data) : extractLabel u = none := by
  unfold extractLabel
  apply List.getElem?_eq_none
  rw [stringsSplit_length, List.count_eq_zero.2 h]

theorem fetch_eq_run (get : Transport) (sched : List Nat) (urls : List String) (k : Int)
    (hk : 0 ≤ k) :
    FetchContentParallel get sched urls k =
      runSched { urls := urls, limit := k.toNat, get := get } sched initState := by
  unfold FetchContentParallel makeChan
  rw [if_neg (by omega)]

theorem fetch_inv (get : Transport) (sched : List Nat) (urls : List String) (k : Int)
    (hk : 0 ≤ k) :
    Inv { urls := urls, limit := k.toNat, get := get } (FetchContentParallel get sched urls k) := by
  rw [fetch_eq_run get sched urls k hk]
  exact reachable_inv _ _ (run_reachable _ sched initState Reachable.start)

theorem stepsLeft_init (b : Batch) : initState.stepsLeft b = 7 * b.urls.length + 2 := by
  simp [State.stepsLeft, initState, Main.rank]
  omega

/-- A call with a gate of at least one slot and at least one target, run
under a schedule as long as the bound, has panicked or has returned. -/
theorem fetch_ends (get : Transport) (sched : List Nat) (urls : List String) (k : Int)
    (hk : 1 ≤ k) (hne : urls ≠ []) (hlen : 7 * urls.length + 2 ≤ sched.length) :
    (FetchContentParallel get sched urls k).panicked = true ∨
      ∃ rs, (FetchContentParallel get sched urls k).main = .returned rs := by
  have hinv := fetch_inv get sched urls k (by omega)
  have hstop : enabled { urls := urls, limit := k.toNat, get := get }
      (FetchContentParallel get sched urls k) = [] := by
    rw [fetch_eq_run get sched urls k (by omega)]
    apply run_stops
    rw [stepsLeft_init]
    exact hlen
  have hlim : 1 ≤ k.toNat := by omega
  rcases stuck_cases _ _ hinv hlim hne hstop with h1 | ⟨rs, h1, _⟩
  · exact Or.inl h1
  · exact Or.inr ⟨rs, h1⟩

/-- A call never returns when some target has no label or some network call
gives no response. -/
theorem not_returned_of_bad (b : Batch) (s : State) (h : Inv b s) (i : Nat) (u : String)
    (hu : b.urls[i]? = some u) (hbad : extractLabel u = none ∨ (b.get i u).res = none)
    (rs : List result) : s.main ≠ .returned rs := by
  intro hret
  have hm := h.main
  unfold MainInv at hm
  rw [hret] at hm
  obtain ⟨hlen, hposted, _, _⟩ := hm
  have hi : i < s.workers.length := by
    rw [hlen]
    by_contra hc
    rw [List.getElem?_eq_none (by omega)] at hu
    cases hu
  have hw : s.workers[i]? = some s.workers[i] := List.getElem?_eq_getElem hi
  have hp := hposted i _ hw
  have hwi := (h.workers i _ hw).2
  have hout : ∃ r, IsOutcome b i r := by
    cases hpc : (s.workers[i]).pc with
    | releasing => rw [hpc] at hwi; exact hwi
    | done => rw [hpc] at hwi; exact hwi
    | waiting => rw [hpc] at hp; cases hp
    | holding => rw [hpc] at hp; cases hp
    | calling => rw [hpc] at hp; cases hp
    | fetched g => rw [hpc] at hp; cases hp
    | posting r => rw [hpc] at hp; cases hp
  obtain ⟨r, _, u2, hu2, hq, hres, _⟩ := hout
  rw [hu] at hu2
  cases hu2
  rcases hbad with h1 | h1
  · rw [h1] at hq; cases hq
  · rw [h1] at hres; cases hres

/-- A call does not panic when every target has a label and every network
call gives a response. -/
theorem not_panicked_of_good (b : Batch) (s : State) (h : Inv b s)
    (hgood : ∀ (i : Nat) (u : String), b.urls[i]? = some u →
      extractLabel u ≠ none ∧ (b.get i u).res ≠ none) : s.panicked = false := by
  by_contra hc
  obtain ⟨i, u, _, hu, hbad⟩ := h.panic (by simpa using hc)
  rcases hbad with h1 | h1
  · exact (hgood i u hu).1 h1
  · exact (hgood i u hu).2 h1

/-- On an unbuffered gate no worker ever gets past its first send. -/
theorem limit_zero_inv (b : Batch) (hz : b.limit = 0) (s : State) (h : Reachable b s) :
    s.calls = [] ∧ s.panicked = false ∧ s.main.closed = false ∧
      ∀ w ∈ s.workers, w.pc = .waiting := by
  induction h with
  | start => simp [initState, Main.closed]
  | next s t a _ hs ih =>
    obtain ⟨h1, h2, h3, h4⟩ := ih
    unfold step at hs
    rw [if_neg (by simp [h2])] at hs
    split at hs
    · unfold mainStep at hs
      split at hs
      · split at hs
        · cases hs
          refine ⟨h1, h2, rfl, ?_⟩
          intro w hw
          rcases List.mem_append.1 hw with h5 | h5
          · exact h4 w h5
          · simp only [List.mem_singleton] at h5
            rw [h5]
        · cases hs
          exact ⟨h1, h2, rfl, h4⟩
      · cases hs
      · cases hs
    · next i =>
      split at hs
      · next w hw =>
        have hpc := h4 w (List.getElem?_mem hw)
        unfold workerStep at hs
        rw [hpc] at hs
        simp only [h3, hz] at hs
        simp at hs
      · cases hs
    · next i j =>
      split at hs
      · next wi wj hi hj =>
        split at hs
        · next hc =>
          have hpc := h4 wj (List.getElem?_mem hj)
          rw [hpc] at hc
          cases hc.2.2.2
        · cases hs
      · cases hs

/-- On an unbuffered gate only the caller ever moves. -/
theorem limit_zero_only_main (b : Batch) (hz : b.limit = 0) (s t : State) (a : Action)
    (h : Reachable b s) (hs : step b s a = some t) : mainStep b s = some t := by
  obtain ⟨_, h2, h3, h4⟩ := limit_zero_inv b hz s h
  unfold step at hs
  rw [if_neg (by simp [h2])] at hs
  split at hs
  · exact hs
  · next i =>
    split at hs
    · next w hw =>
      have hpc := h4 w (List.getElem?_mem hw)
      unfold workerStep at hs
      rw [hpc] at hs
      simp only [h3, hz] at hs
      simp at hs
    · cases hs
  · next i j =>
    split at hs
    · next wi wj hi hj =>
      split at hs
      · next hc =>
        have hpc := h4 wj (List.getElem?_mem hj)
        rw [hpc] at hc
        cases hc.2.2.2
      · cases hs
    · cases hs

/-- On an unbuffered gate the caller starts the workers one target after the
other and then stands at its first receive with one waiting worker per target. -/
theorem limit_zero_shape (b : Batch) (hz : b.limit = 0) (s : State) (h : Reachable b s) :
    (∃ j, s.main = .launching j ∧ j ≤ b.urls.length ∧
      s.workers = (b.urls.take j).map fun u => { url := u, pc := .waiting }) ∨
    (s.main = .collecting [] ∧
      s.workers = b.urls.map fun u => { url := u, pc := .waiting }) := by
  induction h with
  | start => exact Or.inl ⟨0, rfl, Nat.zero_le _, rfl⟩
  | next s t a hreach hs ih =>
    have hm := limit_zero_only_main b hz s t a hreach hs
    unfold mainStep at hm
    split at hm
    · next j hj =>
      rcases ih with ⟨j2, h1, h2, h3⟩ | ⟨h1, _⟩
      · rw [hj] at h1
        cases h1
        split at hm
        · next url hu =>
          cases hm
          left
          have hjlt : j < b.urls.length := by
            by_contra hc
            rw [List.getElem?_eq_none (by omega)] at hu
            cases hu
          refine ⟨j + 1, rfl, hjlt, ?_⟩
          simp only
          rw [h3, List.take_succ, hu]
          simp
        · next hu =>
          cases hm
          right
          have hjn : b.urls.length ≤ j := by
            by_contra hc
            rw [List.getElem?_eq_getElem (by omega)] at hu
            cases hu
          refine ⟨rfl, ?_⟩
          simp only
          rw [h3, List.take_of_length_le hjn]
      · rw [hj] at h1
        cases h1
    · cases hm
    · cases hm

/-- On an unbuffered gate a run of at least `n + 1 - j` picks from a state in
which the caller is about to start worker `j` ends where nothing can move. -/
theorem limit_zero_stops (b : Batch) (hz : b.limit = 0) : ∀ (sched : List Nat) (s : State),
    Reachable b s →
    (∀ j, s.main = .launching j → b.urls.length - j + 1 ≤ sched.length) →
    enabled b (runSched b sched s) = []
  | [], s, h, hlen => by
    simp only [runSched]
    unfold enabled
    rw [List.filterMap_eq_nil_iff]
    intro a _
    cases hs : step b s a with
    | none => rfl
    | some t =>
      exfalso
      have hm := limit_zero_only_main b hz s t a h hs
      unfold mainStep at hm
      split at hm
      · next j hj =>
        have := hlen j hj
        simp at this
      · cases hm
      · cases hm
  | c :: cs, s, h, hlen => by
    unfold runSched
    split
    · next t ht =>
      obtain ⟨a, ha⟩ := mem_enabled b s t (List.getElem?_mem ht)
      apply limit_zero_stops b hz cs t (Reachable.next s t a h ha)
      intro j2 hj2
      have hm := limit_zero_only_main b hz s t a h ha
      unfold mainStep at hm
      split at hm
      · next j hj =>
        have hl := hlen j hj
        simp only [List.length_cons] at hl
        split at hm
        · next url hu =>
          cases hm
          simp only at hj2
          cases hj2
          have hjlt : j < b.urls.length := by
            by_contra hc
            rw [List.getElem?_eq_none (by omega)] at hu
            cases hu
          omega
        · cases hm
          cases hj2
      · cases hm
      · cases hm
    · next hn =>
      by_contra hc
      have hpos : 0 < (enabled b s).length := List.length_pos.2 hc
      rw [List.getElem?_eq_getElem (Nat.mod_lt _ hpos)] at hn
      cases hn

theorem state_eq_of_fields (s : State) (m : Main) (ws : List Worker) (h1 : s.main = m)
    (h2 : s.workers = ws) (h3 : s.sem = 0) (h4 : s.calls = []) (h5 : s.panicked = false) :
    s = { main := m, workers := ws, sem := 0, calls := [], panicked := false } := by
  cases s
  simp only at h1 h2 h3 h4 h5
  rw [h1, h2, h3, h4, h5]

/-- With no target the caller waits for a result that no worker will send. -/
theorem empty_inv (b : Batch) (hz : b.urls = []) (s : State) (h : Reachable b s) :
    s.workers = [] ∧ s.calls = [] ∧ s.panicked = false ∧ s.main.closed = false := by
  induction h with
  | start => simp [initState, Main.closed]
  | next s t a _ hs ih =>
    obtain ⟨h1, h2, h3, h4⟩ := ih
    unfold step at hs
    rw [if_neg (by simp [h3])] at hs
    split at hs
    · unfold mainStep at hs
      split at hs
      · split at hs
        · next url hu =>
          rw [hz] at hu
          simp at hu
        · cases hs
          exact ⟨h1, h2, h3, rfl⟩
      · cases hs
      · cases hs
    · next i =>
      rw [h1] at hs
      simp at hs
    · next i j =>
      rw [h1] at hs
      simp at hs

theorem inFlight_le_holders (s : State) : s.inFlight ≤ s.holders := by
  unfold State.inFlight State.holders
  apply List.countP_mono_left
  intro w _ hw
  cases hpc : w.pc <;> rw [hpc] at hw <;> first | rfl | cases hw

theorem holders_pairwise : ∀ (l : List Worker) (i j : Nat) (wi wj : Worker),
    l.countP (fun w => w.pc.holder) ≤ 1 → l[i]? = some wi → l[j]? = some wj →
    wi.pc.holder = true → wj.pc.holder = true → i = j
  | [], i, j, wi, wj, _, hi, _, _, _ => by simp at hi
  | x :: xs, 0, 0, wi, wj, _, _, _, _, _ => rfl
  | x :: xs, 0, j + 1, wi, wj, hc, hi, hj, h1, h2 => by
    exfalso
    simp at hi hj
    subst hi
    have hpos : 0 < xs.countP (fun w => w.pc.holder) :=
      List.countP_pos_iff.2 ⟨wj, List.getElem?_mem hj, h2⟩
    rw [List.countP_cons] at hc
    simp only [h1, if_true] at hc
    omega
  | x :: xs, i + 1, 0, wi, wj, hc, hi, hj, h1, h2 => by
    exfalso
    simp at hi hj
    subst hj
    have hpos : 0 < xs.countP (fun w => w.pc.holder) :=
      List.countP_pos_iff.2 ⟨wi, List.getElem?_mem hi, h1⟩
    rw [List.countP_cons] at hc
    simp only [h2, if_true] at hc
    omega
  | x :: xs, i + 1, j + 1, wi, wj, hc, hi, hj, h1, h2 => by
    simp at hi hj
    have hc2 : xs.countP (fun w => w.pc.holder) ≤ 1 := by
      have := List.countP_cons (fun w : Worker => w.pc.holder) x xs
      omega
    rw [holders_pairwise xs i j wi wj hc2 hi hj h1 h2]

/-! ## The claims -/

/-- C1 (as amended): for every input of `n ≥ 1` targets that each contain `=`,
every concurrency limit `k ≥ 1`, every network whose calls all give a response
and every order in which the scheduler lets the goroutines move,
`FetchContentParallel` returns (under every schedule of at least `7 n + 2`
picks), and whatever it returns has length `n` and holds at place `i` the
outcome of index `i`, built from target `i` and the answer to its call. -/
theorem order_preservation (get : Transport) (urls : List String) (k : Int)
    (hne : urls ≠ []) (hk : 1 ≤ k) (hlabel : ∀ u ∈ urls, '=' ∈ u.data)
    (hres : ∀ (i : Nat) (u : String), urls[i]? = some u → (get i u).res ≠ none) :
    (∀ sched : List Nat, 7 * urls.length + 2 ≤ sched.length →
      ∃ rs, (FetchContentParallel get sched urls k).main = .returned rs) ∧
    (∀ (sched : List Nat) (rs : List result),
      (FetchContentParallel get sched urls k).main = .returned rs →
      rs.length = urls.length ∧
        ∀ i, i < urls.length → ∃ r, rs[i]? = some r ∧ r.index = i ∧
          IsOutcome { urls := urls, limit := k.toNat, get := get } i r) := by
  have hgood : ∀ (i : Nat) (u : String), urls[i]? = some u →
      extractLabel u ≠ none ∧ (get i u).res ≠ none := by
    intro i u hu
    obtain ⟨q, hq⟩ := extractLabel_isSome u (hlabel u (List.getElem?_mem hu))
    exact ⟨by rw [hq]; simp, hres i u hu⟩
  constructor
  · intro sched hlen
    rcases fetch_ends get sched urls k hk hne hlen with h1 | h1
    · have h2 := not_panicked_of_good _ _ (fetch_inv get sched urls k (by omega)) hgood
      rw [h1] at h2
      cases h2
    · exact h1
  · intro sched rs hret
    have hm := (fetch_inv get sched urls k (by omega)).main
    unfold MainInv at hm
    rw [hret] at hm
    obtain ⟨_, _, h3, h4⟩ := hm
    refine ⟨h3, ?_⟩
    intro i hi
    obtain ⟨r, hr, hout⟩ := h4 i hi
    exact ⟨r, hr, hout.1, hout⟩

/-- C1, a run of the amended claim: three labelled targets, two slots, a
network that always answers. -/
theorem order_preservation_witness :
    (∀ sched : List Nat, 7 * ["x=A1", "x=A2", "x=A3"].length + 2 ≤ sched.length →
      ∃ rs, (FetchContentParallel okGet sched ["x=A1", "x=A2", "x=A3"] 2).main = .returned rs) ∧
    (∀ (sched : List Nat) (rs : List result),
      (FetchContentParallel okGet sched ["x=A1", "x=A2", "x=A3"] 2).main = .returned rs →
      rs.length = ["x=A1", "x=A2", "x=A3"].length ∧
        ∀ i, i < ["x=A1", "x=A2", "x=A3"].length → ∃ r, rs[i]? = some r ∧ r.index = i ∧
          IsOutcome { urls := ["x=A1", "x=A2", "x=A3"], limit := (2 : Int).toNat, get := okGet }
            i r) :=
  order_preservation okGet ["x=A1", "x=A2", "x=A3"] 2 (by decide) (by decide) (by decide)
    (fun _ _ _ => by simp [okGet])

/-- C1 as stated fails: on the empty input the call never returns (the caller
waits for a first result that nobody sends), and it never returns either when
a target has no `=` or when a network call gives no response. -/
theorem order_preservation_counterexample :
    (FetchContentParallel okGet [0, 0, 0] [] 1 =
        { main := .collecting [], workers := [], sem := 0, calls := [], panicked := false } ∧
      ∀ (sched : List Nat) (rs : List result),
        (FetchContentParallel okGet sched [] 1).main ≠ .returned rs) ∧
    (∀ (sched : List Nat) (rs : List result),
      (FetchContentParallel okGet sched ["http://a/b"] 1).main ≠ .returned rs) ∧
    (∀ (sched : List Nat) (rs : List result),
      (FetchContentParallel stubGet sched ["x=A1", "x=A2", "x=A3"] 2).main ≠ .returned rs) := by
  refine ⟨⟨by decide, ?_⟩, ?_, ?_⟩
  · intro sched rs hret
    have h := empty_inv { urls := [], limit := (1 : Int).toNat, get := okGet } rfl _
      (run_reachable _ sched initState Reachable.start)
    rw [← fetch_eq_run okGet sched [] 1 (by decide), hret] at h
    cases h.2.2.2
  · intro sched rs
    exact not_returned_of_bad _ _ (fetch_inv okGet sched ["http://a/b"] 1 (by decide)) 0 "http://a/b"
      (by decide) (Or.inl (by decide)) rs
  · intro sched rs
    exact not_returned_of_bad _ _ (fetch_inv stubGet sched ["x=A1", "x=A2", "x=A3"] 2 (by decide))
      1 "x=A2" (by decide) (Or.inr (by decide)) rs

/-- C2 (what the code does instead): when the network call of some position
gives no response (`res` is nil, the transport error case), a call with
`k ≥ 1` never returns a batch, and every run of at least `7 n + 2` picks ends
in a panic: building the outcome dereferences the nil response. -/
theorem transport_failure_panics (get : Transport) (sched : List Nat) (urls : List String)
    (k : Int) (i : Nat) (u : String) (hk : 1 ≤ k) (hu : urls[i]? = some u)
    (hfail : (get i u).res = none) :
    (∀ rs, (FetchContentParallel get sched urls k).main ≠ .returned rs) ∧
    (7 * urls.length + 2 ≤ sched.length →
      (FetchContentParallel get sched urls k).panicked = true) := by
  have hnot := not_returned_of_bad _ _ (fetch_inv get sched urls k (by omega)) i u hu
    (Or.inr hfail)
  refine ⟨hnot, ?_⟩
  intro hlen
  have hne : urls ≠ [] := by
    intro e
    rw [e] at hu
    simp at hu
  rcases fetch_ends get sched urls k hk hne hlen with h1 | ⟨rs, h1⟩
  · exact h1
  · exact absurd h1 (hnot rs)

/-- C2, the scenario of the specification: targets for `A1`, `A2`, `A3`, two
slots, the call for `A2` fails. -/
theorem transport_failure_panics_witness :
    (∀ rs, (FetchContentParallel stubGet (List.replicate 23 0) ["x=A1", "x=A2", "x=A3"] 2).main
      ≠ .returned rs) ∧
    (7 * ["x=A1", "x=A2", "x=A3"].length + 2 ≤ (List.replicate 23 0).length →
      (FetchContentParallel stubGet (List.replicate 23 0) ["x=A1", "x=A2", "x=A3"] 2).panicked
        = true) :=
  transport_failure_panics stubGet (List.replicate 23 0) ["x=A1", "x=A2", "x=A3"] 2 1 "x=A2"
    (by decide) (by decide) (by decide)

/-- C4: for every concurrency limit `k ≥ 1` and every input, in every
reachable state of a call the number of workers that have taken a slot of
`semaphoreChan` and not given it back is at most `k`, the number of network
calls in flight is at most that number, and with `k = 1` no two different
workers hold a slot at once; the reachable states are exactly the states of
the runs of `FetchContentParallel` under all schedules. -/
theorem bounded_concurrency (get : Transport) (urls : List String) (k : Int) (hk : 1 ≤ k) :
    (∀ s, Reachable { urls := urls, limit := k.toNat, get := get } s →
      (s.holders : Int) ≤ k ∧ s.inFlight ≤ s.holders ∧
      (k = 1 → ∀ (i j : Nat) (wi wj : Worker), s.workers[i]? = some wi →
        s.workers[j]? = some wj → wi.pc.holder = true → wj.pc.holder = true → i = j)) ∧
    (∀ s, Reachable { urls := urls, limit := k.toNat, get := get } s ↔
      ∃ sched, FetchContentParallel get sched urls k = s) := by
  constructor
  · intro s hs
    have hinv := reachable_inv _ s hs
    have h1 := hinv.sem
    have h2 := hinv.cap
    simp only at h2
    refine ⟨by omega, inFlight_le_holders s, ?_⟩
    intro hk1 i j wi wj hi hj hwi hwj
    apply holders_pairwise s.workers i j wi wj _ hi hj hwi hwj
    have h3 : s.holders ≤ 1 := by omega
    exact h3
  · intro s
    constructor
    · intro hs
      obtain ⟨sched, h⟩ := reachable_run _ s hs
      exact ⟨sched, by rw [fetch_eq_run get sched urls k (by omega)]; exact h⟩
    · rintro ⟨sched, rfl⟩
      rw [fetch_eq_run get sched urls k (by omega)]
      exact run_reachable _ sched initState Reachable.start

/-- C4, at a concrete batch: three targets, one slot. -/
theorem bounded_concurrency_witness :
    (∀ s, Reachable { urls := ["x=A1", "x=A2", "x=A3"], limit := (1 : Int).toNat, get := okGet } s →
      (s.holders : Int) ≤ 1 ∧ s.inFlight ≤ s.holders ∧
      ((1 : Int) = 1 → ∀ (i j : Nat) (wi wj : Worker), s.workers[i]? = some wi →
        s.workers[j]? = some wj → wi.pc.holder = true → wj.pc.holder = true → i = j)) ∧
    (∀ s, Reachable { urls := ["x=A1", "x=A2", "x=A3"], limit := (1 : Int).toNat, get := okGet } s ↔
      ∃ sched, FetchContentParallel okGet sched ["x=A1", "x=A2", "x=A3"] 1 = s) :=
  bounded_concurrency okGet ["x=A1", "x=A2", "x=A3"] 1 (by decide)

/-- C5 (as amended): for a negative concurrency limit the call panics when it
makes `semaphoreChan`, before any worker is started and before any network
call; for the limit 0 nothing is checked: the workers are started, one per
target and in the order of the targets (the workers started so far are always
those of the first targets, and every run of at least `n + 1` picks ends with
the caller at its first receive and all `n` workers started), each stays at
its first send for ever, no network call is made, and the call neither panics
nor returns. -/
theorem bad_limit (get : Transport) (sched : List Nat) (urls : List String) (k : Int)
    (hk : k < 1) :
    (FetchContentParallel get sched urls k).calls = [] ∧
    (∀ rs, (FetchContentParallel get sched urls k).main ≠ .returned rs) ∧
    (k < 0 → FetchContentParallel get sched urls k = crash initState) ∧
    (k = 0 → (FetchContentParallel get sched urls k).panicked = false ∧
      ∀ w ∈ (FetchContentParallel get sched urls k).workers, w.pc = .waiting) ∧
    (k = 0 → (FetchContentParallel get sched urls k).workers =
      (urls.take (FetchContentParallel get sched urls k).workers.length).map
        fun u => { url := u, pc := .waiting }) ∧
    (k = 0 → urls.length + 1 ≤ sched.length →
      FetchContentParallel get sched urls k =
        { main := .collecting [],
          workers := urls.map fun u => { url := u, pc := .waiting },
          sem := 0, calls := [], panicked := false }) := by
  rcases Int.lt_or_le k 0 with hneg | hnn
  · have e : FetchContentParallel get sched urls k = crash initState := by
      unfold FetchContentParallel makeChan
      rw [if_pos hneg]
    rw [e]
    refine ⟨rfl, ?_, fun _ => rfl, ?_, ?_, ?_⟩
    · intro rs h
      cases h
    · intro h0
      omega
    · intro h0
      omega
    · intro h0
      omega
  · have hz : k = 0 := by omega
    subst hz
    have hreach : Reachable { urls := urls, limit := (0 : Int).toNat, get := get }
        (FetchContentParallel get sched urls 0) := by
      rw [fetch_eq_run get sched urls 0 (by decide)]
      exact run_reachable _ sched initState Reachable.start
    have h := limit_zero_inv _ rfl _ hreach
    have hshape := limit_zero_shape _ rfl _ hreach
    simp only at hshape
    refine ⟨h.1, ?_, ?_, fun _ => ⟨h.2.1, h.2.2.2⟩, fun _ => ?_, fun _ hlen => ?_⟩
    · intro rs hret
      have hc := h.2.2.1
      rw [hret] at hc
      cases hc
    · intro hlt
      omega
    · rcases hshape with ⟨j, _, hj, hw⟩ | ⟨_, hw⟩
      · have hl : (FetchContentParallel get sched urls 0).workers.length = j := by
          rw [hw, List.length_map, List.length_take]
          omega
        rw [hl]
        exact hw
      · have hl : (FetchContentParallel get sched urls 0).workers.length = urls.length := by
          rw [hw, List.length_map]
        rw [hl, List.take_length]
        exact hw
    · have hstop : enabled { urls := urls, limit := (0 : Int).toNat, get := get }
          (FetchContentParallel get sched urls 0) = [] := by
        rw [fetch_eq_run get sched urls 0 (by decide)]
        apply limit_zero_stops _ rfl sched initState Reachable.start
        intro j hj
        cases hj
        simp only [Nat.sub_zero]
        exact hlen
      have hsem : (FetchContentParallel get sched urls 0).sem = 0 := by
        have hc := (fetch_inv get sched urls 0 (by decide)).cap
        simp only [Int.toNat_zero] at hc
        omega
      rcases hshape with ⟨j, hm, _, _⟩ | ⟨hm, hw⟩
      · exfalso
        have hall := List.filterMap_eq_nil_iff.1 hstop Action.main (by simp [actions])
        simp only [step, h.2.1, Bool.false_eq_true, if_false, mainStep, hm] at hall
        split at hall <;> cases hall
      · exact state_eq_of_fields _ _ _ hm hw hsem h.1 h.2.1

/-- C5, at the limit `-1`, where the call panics before anything is started,
and at the limit `0`, where both workers are started and wait. -/
theorem bad_limit_witness :
    ((FetchContentParallel okGet [0, 0, 0] ["x=A1", "x=A2"] (-1)).calls = [] ∧
      (∀ rs, (FetchContentParallel okGet [0, 0, 0] ["x=A1", "x=A2"] (-1)).main ≠ .returned rs) ∧
      FetchContentParallel okGet [0, 0, 0] ["x=A1", "x=A2"] (-1) = crash initState) ∧
    ((FetchContentParallel okGet [5, 1, 7] ["x=A1", "x=A2"] 0).calls = [] ∧
      (∀ rs, (FetchContentParallel okGet [5, 1, 7] ["x=A1", "x=A2"] 0).main ≠ .returned rs) ∧
      (FetchContentParallel okGet [5, 1, 7] ["x=A1", "x=A2"] 0).panicked = false ∧
      FetchContentParallel okGet [5, 1, 7] ["x=A1", "x=A2"] 0 =
        { main := .collecting [],
          workers := [{ url := "x=A1", pc := .waiting }, { url := "x=A2", pc := .waiting }],
          sem := 0, calls := [], panicked := false }) :=
  ⟨⟨(bad_limit okGet [0, 0, 0] ["x=A1", "x=A2"] (-1) (by decide)).1,
    (bad_limit okGet [0, 0, 0] ["x=A1", "x=A2"] (-1) (by decide)).2.1,
    (bad_limit okGet [0, 0, 0] ["x=A1", "x=A2"] (-1) (by decide)).2.2.1 (by decide)⟩,
   ⟨(bad_limit okGet [5, 1, 7] ["x=A1", "x=A2"] 0 (by decide)).1,
    (bad_limit okGet [5, 1, 7] ["x=A1", "x=A2"] 0 (by decide)).2.1,
    ((bad_limit okGet [5, 1, 7] ["x=A1", "x=A2"] 0 (by decide)).2.2.2.1 rfl).1,
    (bad_limit okGet [5, 1, 7] ["x=A1", "x=A2"] 0 (by decide)).2.2.2.2.2 rfl (by decide)⟩⟩

/-- C5 as stated fails at the limit 0: both workers have been started and the
call has not aborted. -/
theorem bad_limit_counterexample :
    FetchContentParallel okGet [0, 0, 0] ["x=A1", "x=A2"] 0 =
      { main := .collecting [],
        workers := [{ url := "x=A1", pc := .waiting }, { url := "x=A2", pc := .waiting }],
        sem := 0, calls := [], panicked := false } := by
  decide

/-- C7 (as amended): for every input that has a target without `=` and every
limit `k ≥ 1`, nothing is checked when the batch is set up: the call never
returns, every run of at least `7 n + 2` picks ends in a panic, and a panic
happens only in a worker, after the network call of a position whose target
has no label or whose call gave no response has been made. -/
theorem unlabelled_target_panics_mid_fetch (get : Transport) (sched : List Nat)
    (urls : List String) (k : Int) (u : String) (hk : 1 ≤ k) (hu : u ∈ urls)
    (hno : '=' ∉ u.data) :
    (∀ rs, (FetchContentParallel get sched urls k).main ≠ .returned rs) ∧
    (7 * urls.length + 2 ≤ sched.length →
      (FetchContentParallel get sched urls k).panicked = true) ∧
    ((FetchContentParallel get sched urls k).panicked = true →
      ∃ i v, i ∈ (FetchContentParallel get sched urls k).calls ∧ urls[i]? = some v ∧
        (extractLabel v = none ∨ (get i v).res = none)) := by
  obtain ⟨i, hi⟩ := List.mem_iff_getElem?.1 hu
  have hinv := fetch_inv get sched urls k (by omega)
  have hnot := not_returned_of_bad _ _ hinv i u hi (Or.inl (extractLabel_none u hno))
  refine ⟨hnot, ?_, hinv.panic⟩
  intro hlen
  have hne : urls ≠ [] := List.ne_nil_of_mem hu
  rcases fetch_ends get sched urls k hk hne hlen with h1 | ⟨rs, h1⟩
  · exact h1
  · exact absurd h1 (hnot rs)

/-- C7, at a batch of one target without `=`. -/
theorem unlabelled_target_panics_mid_fetch_witness :
    (∀ rs, (FetchContentParallel okGet (List.replicate 9 0) ["http://a/b"] 1).main ≠ .returned rs) ∧
    (7 * ["http://a/b"].length + 2 ≤ (List.replicate 9 0).length →
      (FetchContentParallel okGet (List.replicate 9 0) ["http://a/b"] 1).panicked = true) ∧
    ((FetchContentParallel okGet (List.replicate 9 0) ["http://a/b"] 1).panicked = true →
      ∃ i v, i ∈ (FetchContentParallel okGet (List.replicate 9 0) ["http://a/b"] 1).calls ∧
        ["http://a/b"][i]? = some v ∧ (extractLabel v = none ∨ (okGet i v).res = none)) :=
  unlabelled_target_panics_mid_fetch okGet (List.replicate 9 0) ["http://a/b"] 1 "http://a/b"
    (by decide) (by decide) (by decide)

/-- C7 as stated fails: with the one target `http://a/b` the worker has been
started and its network call has been made when the program panics. -/
theorem unlabelled_target_counterexample :
    FetchContentParallel okGet [0, 0, 0, 0, 0, 0] ["http://a/b"] 1 =
      { main := .collecting [],
        workers := [{ url := "http://a/b",
                      pc := .fetched { res := some { StatusCode := 200,
                                                     Body := some { content := some "http://a/b" } },
                                       err := none } }],
        sem := 1, calls := [0], panicked := true } := by
  decide

theorem ascending_iff (l : List result) :
    Ascending l ↔ List.Sorted (· ≤ ·) (l.map (·.index)) := by
  constructor
  · exact ascending_map_index
  · intro h
    unfold List.Sorted at h
    rw [List.pairwise_map] at h
    exact h.imp (fun {a b} hab => by unfold notAfter less; omega)

/-- C9: for every collection of outcomes with pairwise distinct `index`
values, sorting it by `index` (the `sort.Slice` step) and sorting the result
again gives the same sequence as sorting once, and sorting a collection that
is already in ascending `index` order returns it unchanged. -/
theorem reorder_idempotent (l : List result) (hd : (l.map (·.index)).Nodup) :
    sortSlice (sortSlice l) = sortSlice l ∧
    (List.Sorted (· ≤ ·) (l.map (·.index)) → sortSlice l = l) := by
  have hperm := sortSlice_perm l
  have hd2 : ((sortSlice l).map (·.index)).Nodup := (hperm.map _).nodup_iff.2 hd
  constructor
  · exact ascending_unique _ _ (sortSlice_perm (sortSlice l)) (sortSlice_ascending _)
      (sortSlice_ascending l) ((((sortSlice_perm (sortSlice l)).map _).nodup_iff).2 hd2)
  · intro hs
    exact ascending_unique _ _ hperm (sortSlice_ascending l) ((ascending_iff l).2 hs) hd2

/-- C9, on three outcomes received in the order 2, 0, 1. -/
theorem reorder_idempotent_witness :
    sortSlice (sortSlice
        [{ query := "A3", index := 2, res := { StatusCode := 200, Body := none }, err := none },
         { query := "A1", index := 0, res := { StatusCode := 200, Body := none }, err := none },
         { query := "A2", index := 1, res := { StatusCode := 200, Body := none }, err := none }]) =
      sortSlice
        [{ query := "A3", index := 2, res := { StatusCode := 200, Body := none }, err := none },
         { query := "A1", index := 0, res := { StatusCode := 200, Body := none }, err := none },
         { query := "A2", index := 1, res := { StatusCode := 200, Body := none }, err := none }] ∧
    (List.Sorted (· ≤ ·)
        (([{ query := "A3", index := 2, res := { StatusCode := 200, Body := none }, err := none },
           { query := "A1", index := 0, res := { StatusCode := 200, Body := none }, err := none },
           { query := "A2", index := 1, res := { StatusCode := 200, Body := none }, err := none }] :
          List result).map (·.index)) →
      sortSlice
        [{ query := "A3", index := 2, res := { StatusCode := 200, Body := none }, err := none },
         { query := "A1", index := 0, res := { StatusCode := 200, Body := none }, err := none },
         { query := "A2", index := 1, res := { StatusCode := 200, Body := none }, err := none }] =
      [{ query := "A3", index := 2, res := { StatusCode := 200, Body := none }, err := none },
       { query := "A1", index := 0, res := { StatusCode := 200, Body := none }, err := none },
       { query := "A2", index := 1, res := { StatusCode := 200, Body := none }, err := none }]) :=
  reorder_idempotent _ (by decide)

/-- C10: for every list of identifiers, every target that `PrepareURLs` builds
splits on `=` into at least two parts, so the index `queryString[1]` of the
fetch worker is in range on it. -/
theorem label_in_range (queries : List ASN) (u : String) (h : u ∈ PrepareURLs queries) :
    2 ≤ (stringsSplit u '=').length ∧ ∃ q, extractLabel u = some q := by
  obtain ⟨q, _, _, rfl⟩ := mem_PrepareURLs queries u h
  have h2 := template_split_length q.ASPrefixedNumber
  exact ⟨h2, _, List.getElem?_eq_getElem (by omega)⟩

/-- C10, on the target built for `AS3333`. -/
theorem label_in_range_witness :
    2 ≤ (stringsSplit (RequestURITemplate ++ "AS3333") '=').length ∧
      ∃ q, extractLabel (RequestURITemplate ++ "AS3333") = some q :=
  label_in_range [{ ASPrefixedNumber := "AS3333" }] (RequestURITemplate ++ "AS3333") (by decide)

/-- C3 (as amended): for every non-empty identifier `s` that contains no `=`,
`PrepareURLs` builds one target for `s` and the label the fetch worker takes
from that target is `s`. -/
theorem label_round_trip (s : String) (hne : s ≠ "") (hsep : '=' ∉ s.data) :
    PrepareURLs [{ ASPrefixedNumber := s }] = [RequestURITemplate ++ s] ∧
      extractLabel (RequestURITemplate ++ s) = some s := by
  refine ⟨?_, extractLabel_template s hsep⟩
  simp [PrepareURLs, hne]

/-- C3, on the identifier `AS3333`. -/
theorem label_round_trip_witness :
    PrepareURLs [{ ASPrefixedNumber := "AS3333" }] = [RequestURITemplate ++ "AS3333"] ∧
      extractLabel (RequestURITemplate ++ "AS3333") = some "AS3333" :=
  label_round_trip "AS3333" (by decide) (by decide)

/-- C3 as stated fails: the line `1=2` gives the non-empty identifier `AS1=2`,
a target is built for it, and the label taken from that target is `AS1`. -/
theorem label_round_trip_counterexample :
    readAsnInformation ["1=2"] = some [{ ASPrefixedNumber := "AS1=2" }] ∧
    PrepareURLs [{ ASPrefixedNumber := "AS1=2" }] = [RequestURITemplate ++ "AS1=2"] ∧
    extractLabel (RequestURITemplate ++ "AS1=2") = some "AS1" ∧
    ("AS1" : String) ≠ "AS1=2" := by
  decide

theorem as_append_ne_empty (c : String) : "AS" ++ c ≠ "" := by
  intro h
  have hd := congrArg String.data h
  rw [String.data_append] at hd
  cases hd

theorem stringsSplit_head (line : String) (sep : Char) :
    ∃ c, (stringsSplit line sep)[0]? = some c := by
  have h := stringsSplit_length line sep
  exact ⟨_, List.getElem?_eq_getElem (by omega)⟩

/-- C6 (what the code does instead): `readAsnInformation` turns every line,
the empty one included, into an identifier that starts with `AS` and so is
never empty, and `PrepareURLs` builds a target for every line: of the three
lines `1 x`, the empty line and ` 7`, the last two give the target for the
identifier `AS`.  On its own `PrepareURLs` does drop every empty
identifier. -/
theorem blank_line_builds_target :
    (readAsnInformation ["1 x", "", " 7"]).map PrepareURLs =
      some [RequestURITemplate ++ "AS1", RequestURITemplate ++ "AS", RequestURITemplate ++ "AS"] ∧
    (∀ lines : List String, ∃ asns, readAsnInformation lines = some asns ∧
      (PrepareURLs asns).length = lines.length) ∧
    (∀ queries : List ASN,
      PrepareURLs queries =
        (queries.filter fun q => q.ASPrefixedNumber ≠ "").map
          fun q => RequestURITemplate ++ q.ASPrefixedNumber) := by
  refine ⟨by decide, ?_, ?_⟩
  · intro lines
    induction lines with
    | nil => exact ⟨[], rfl, rfl⟩
    | cons line rest ih =>
      obtain ⟨asns, h1, h2⟩ := ih
      obtain ⟨c, hc⟩ := stringsSplit_head line ' '
      refine ⟨{ ASPrefixedNumber := "AS" ++ c } :: asns, ?_, ?_⟩
      · simp [readAsnInformation, hc, h1]
      · simp [PrepareURLs, as_append_ne_empty, h2]
  · intro queries
    induction queries with
    | nil => rfl
    | cons q qs ih =>
      by_cases hq : q.ASPrefixedNumber = ""
      · simp [PrepareURLs, hq, ih]
      · simp [PrepareURLs, hq, ih]

/-- C8 (as amended): for every batch result whose outcomes all have a body
that is not nil, `WriteResponse` calls `ioutil.ReadAll` on the body of every
outcome exactly once, in batch order, whether or not `err` is set; it emits
one record (label, body) for each outcome whose read succeeds, in batch order;
and it reports the `index` of each outcome whose read fails and emits nothing
for it, so that the records of the other outcomes are what they are without
it. -/
theorem write_response_reads_all (results : List result)
    (hbody : ∀ r ∈ results, r.res.Body ≠ none) :
    ∃ out, WriteResponse true results = some out ∧
      readPlaces out.events = List.range results.length ∧
      out.responses = results.filterMap recordOf ∧
      reported out.events = (results.filter fun r => recordOf r = none).map (·.index) := by
  refine ⟨_, by simp only [WriteResponse, if_true]; exact writeLoop_spec results 0 _ hbody, ?_, ?_, ?_⟩
  · simp only [List.nil_append]
    rw [readPlaces_eventsFrom results 0 hbody, List.range_eq_range']
  · simp
  · simp only [List.nil_append]
    rw [reported_eventsFrom]
    congr 1
    apply List.filter_congr
    intro r hr
    simp [hbody r hr]

/-- C8, on a batch of a readable outcome, an outcome whose `err` is set and
whose body is closed, and another readable one. -/
theorem write_response_reads_all_witness :
    ∃ out, WriteResponse true
        [{ query := "A1", index := 0,
           res := { StatusCode := 200, Body := some { content := some "d1" } }, err := none },
         { query := "A2", index := 1,
           res := { StatusCode := 302, Body := some { content := none } },
           err := some "stopped after 10 redirects" },
         { query := "A3", index := 2,
           res := { StatusCode := 200, Body := some { content := some "d3" } }, err := none }]
        = some out ∧
      readPlaces out.events = List.range 3 ∧
      out.responses = [{ ASN := "A1", Data := "d1" }, { ASN := "A3", Data := "d3" }] ∧
      reported out.events = [1] :=
  write_response_reads_all _ (by decide)

/-- C8 as stated fails: an outcome whose `err` is set is not skipped unread.
With a readable body its record is emitted and nothing is reported; with a
closed body `ioutil.ReadAll` is still called on it. -/
theorem write_response_counterexample :
    WriteResponse true
        [{ query := "A2", index := 0,
           res := { StatusCode := 200, Body := some { content := some "data" } },
           err := some "transport error" }] =
      some { responses := [{ ASN := "A2", Data := "data" }], events := [Event.readAll 0] } ∧
    WriteResponse true
        [{ query := "A2", index := 0,
           res := { StatusCode := 302, Body := some { content := none } },
           err := some "stopped after 10 redirects" }] =
      some { responses := [], events := [Event.readAll 0, Event.report 0] } := by
  decide

end Fetch
